import Mathlib

/-!
Verification development for the PurePress content-resolution core
(`purepress/__init__.py`).  Python strings are modelled as `List Char`
(`Str`); Python `str` operations used by the source (`strip`, `split`,
`startswith`, `endswith`, `os.path` helpers, `werkzeug.security.safe_join`,
`posixpath.normpath`) are translated function-by-function below.  The external
YAML parser (`yaml.load`) and the Markdown renderer (`markdown_convert`) are
not part of the repository; they are passed in as explicit function
parameters (`yaml`, `render`).  A tiny concrete YAML instance (`yamlMini`)
reproducing PyYAML's output on the simple `key: value` documents used in
concrete test inputs is provided so that theorems can be evaluated.
-/

namespace PurePress

/-- Python strings, modelled as lists of characters. -/
abbrev Str := List Char

/-- Coerce a Lean string literal into the model. -/
def ofStr (s : String) : Str := s.data

/-- Characters stripped by Python's `str.strip()` (the whitespace characters
occurring in the documents under consideration). -/
def isSpc (c : Char) : Bool := c = ' ' || c = '\t' || c = '\n' || c = '\r'

/-- Python `str.strip()`: drop leading and trailing whitespace. -/
def pyStrip (s : Str) : Str := ((s.dropWhile isSpc).reverse.dropWhile isSpc).reverse

/-- `isPre pat s`: `pat` is a prefix of `s` (Python `s.startswith(pat)` is
`isPre pat s`). -/
def isPre : Str → Str → Bool
  | [], _ => true
  | _ :: _, [] => false
  | a :: as, b :: bs => a = b && isPre as bs

/-- Python `s.startswith(pat)`. -/
def startsWith (s pat : Str) : Bool := isPre pat s

/-- Python `s.endswith(pat)`. -/
def endsWith (s pat : Str) : Bool := isPre pat.reverse s.reverse

/-- Remove a suffix: `stripSuffix s pat` is `s` with `pat.length` final
characters removed. -/
def stripSuffix (s pat : Str) : Str := (s.reverse.drop pat.length).reverse

/-- Split a document at its first line, mirroring `f.readline()` (the first
line, newline not included) followed by `f.read()` (the rest). -/
def splitFirstLine : Str → Str × Str
  | [] => ([], [])
  | c :: rest =>
    if c = '\n' then ([], rest)
    else
      let p := splitFirstLine rest
      (c :: p.1, p.2)

/-- Python `s.split(sep, maxsplit=1)` when it finds an occurrence:
`some (before, after)` for the first occurrence of `sep`, `none` when `sep`
does not occur (in which case the Python two-element unpacking raises
`ValueError`). -/
def splitOnce (sep : Str) : Str → Option (Str × Str)
  | [] => if isPre sep [] then some ([], ([] : Str).drop sep.length) else none
  | c :: rest =>
    if isPre sep (c :: rest) then some ([], (c :: rest).drop sep.length)
    else
      match splitOnce sep rest with
      | some p => some (c :: p.1, p.2)
      | none => none

/-- Python `s.split(sep)` for a one-character separator (full split,
keeping empty pieces, as Python does). -/
def splitAll (sep : Char) : Str → List Str
  | [] => [[]]
  | c :: rest =>
    if c = sep then [] :: splitAll sep rest
    else
      match splitAll sep rest with
      | [] => [[c]]
      | s :: ss => (c :: s) :: ss

/-- Python `sep.join(pieces)` for a one-character separator. -/
def joinChar (sep : Char) : List Str → Str
  | [] => []
  | [s] => s
  | s :: ss => s ++ sep :: joinChar sep ss

/-- Errors the Python code can raise while loading an entry. -/
inductive PyErr where
  /-- `remained.split("---", maxsplit=1)` produced a single element
  (no closing `---` token), so the two-element unpacking fails. -/
  | valueErrorFrontmatter
  /-- `content.split("\n", maxsplit=1)` produced a single element
  (heading line with no following newline), so the unpacking fails. -/
  | valueErrorTitle
  deriving DecidableEq, Repr

/-- The frontmatter/content split of `load_entry` (lines 119–128 of
`purepress/__init__.py`): read the first line and the remainder, both
stripped; if the stripped first line is `---`, split the remainder at the
first occurrence of `---` into frontmatter and body (body stripped);
otherwise the frontmatter is empty and the body is
`"\n\n".join([firstline, remained]).strip()`. -/
def splitDoc (doc : Str) : Except PyErr (Str × Str) :=
  let p := splitFirstLine doc
  let firstline := pyStrip p.1
  let remained := pyStrip p.2
  if firstline = ofStr "---" then
    match splitOnce (ofStr "---") remained with
    | some q => .ok (q.1, pyStrip q.2)
    | none => .error .valueErrorFrontmatter
  else
    .ok ([], pyStrip (firstline ++ ofStr "\n\n" ++ remained))

/-- Values stored in an entry dictionary (the YAML scalars relevant to this
code: strings, booleans, integers, dates and datetimes, `None`). -/
inductive Val where
  | str (s : Str)
  | bool (b : Bool)
  | int (n : Int)
  | date (y m d : Nat)
  | datetime (y m d h mi sec : Nat)
  | none
  deriving DecidableEq, Repr

/-- A Python `dict` with string keys, as an insertion-ordered association
list with unique keys. -/
abbrev Dict := List (String × Val)

/-- `d[k]` lookup returning `none` when the key is absent. -/
def dictGet : Dict → String → Option Val
  | [], _ => Option.none
  | (k, v) :: rest, key => if k = key then some v else dictGet rest key

/-- Python `k in d`. -/
def dictContains (d : Dict) (k : String) : Bool := (dictGet d k).isSome

/-- Python `d[k] = v`: replace in place when the key exists, else append
(Python dicts preserve insertion order). -/
def dictInsert : Dict → String → Val → Dict
  | [], k, v => [(k, v)]
  | (k', v') :: rest, k, v =>
    if k' = k then (k, v) :: rest else (k', v') :: dictInsert rest k v

/-- Python truthiness of a value (used by `x.get("hide", False)` in the
filter of `load_entries`). -/
def truthy : Val → Bool
  | .str s => !s.isEmpty
  | .bool b => b
  | .int n => n != 0
  | .date _ _ _ => true
  | .datetime _ _ _ _ _ _ => true
  | .none => false

/-- `x.get(k, False)` seen as a truth value. -/
def getTruthy (d : Dict) (k : String) : Bool :=
  match dictGet d k with
  | some v => truthy v
  | Option.none => false

/-- `os.path.basename` (POSIX): everything after the last `/`. -/
def basenameOf (p : Str) : Str := (p.reverse.takeWhile (fun c => !(c == '/'))).reverse

/-- Remove the part of a string from its last `.` on (helper for
`os.path.splitext`). -/
def cutLastDot (s : Str) : Str :=
  ((s.reverse.dropWhile (fun c => !(c == '.'))).drop 1).reverse

/-- `os.path.splitext(base)[0]` for a path component: leading dots do not
start an extension; otherwise cut at the last dot if any. -/
def extCut (base : Str) : Str :=
  let lead := base.takeWhile (fun c => c == '.')
  let rest := base.drop lead.length
  if '.' ∈ rest then lead ++ cutLastDot rest else base

/-- `os.path.splitext(p)[0]` on a full POSIX path: the extension is taken in
the final path component only. -/
def splitextRoot (p : Str) : Str :=
  let cs := splitAll '/' p
  match cs.getLast? with
  | some base => joinChar '/' (cs.dropLast ++ [extCut base])
  | Option.none => p

/-- `" ".join(path.splitext(path.basename(fullpath))[0].split("-"))` —
the fallback title derived from the file name (line 141). -/
def humanizeTitle (fullpath : Str) : Str :=
  joinChar ' ' (splitAll '-' (extCut (basenameOf fullpath)))

/-- Normalize one of the `created`/`updated` fields: a bare date becomes a
datetime at midnight (`datetime.combine(entry[k], datetime.min.time())`). -/
def normDateKey (e : Dict) (k : String) : Dict :=
  match dictGet e k with
  | some (.date y m d) => dictInsert e k (.datetime y m d 0 0 0)
  | _ => e

/-- Lines 143–145 of `load_entry`: normalize `created` and `updated`. -/
def normDates (e : Dict) : Dict := normDateKey (normDateKey e "created") "updated"

/-- Lines 134–141 of `load_entry`: derive the title when the metadata does
not supply one.  A leading `# ` heading is consumed as the title and
stripped from the body (`none` when `content.split("\n", maxsplit=1)` cannot
be unpacked into two pieces, the `ValueError` case); otherwise the title is
humanized from the file name. -/
def titleStep (fullpath : Str) (entry1 : Dict) (content : Str) :
    Option (Dict × Str) :=
  if dictContains entry1 "title" then some (entry1, content)
  else if startsWith content (ofStr "# ") then
    match splitOnce (ofStr "\n") content with
    | some tc =>
      some (dictInsert entry1 "title" (.str (pyStrip (tc.1.drop 2))), pyStrip tc.2)
    | Option.none => Option.none
  else some (dictInsert entry1 "title" (.str (humanizeTitle fullpath)), content)

/-- `load_entry(fullpath, meta_only=…)` (lines 117–149).  `yaml` is the
external `yaml.load` (returning `none` for Python `None`, as on empty
frontmatter; assumed to return a mapping otherwise — `entry = yaml.load(…)
or {}`), `render` the external `markdown_convert`.  `doc` is the file's
content, `none` when the file does not exist (`FileNotFoundError` → the
function returns Python `None`, modelled as `.ok Option.none`). -/
def loadEntry (yaml : Str → Option Dict) (render : Str → Str) (fullpath : Str)
    (doc : Option Str) (metaOnly : Bool) : Except PyErr (Option Dict) :=
  match doc with
  | Option.none => .ok Option.none
  | some d =>
    match splitDoc d with
    | .error e => .error e
    | .ok fc =>
      let entry1 := dictInsert ((yaml fc.1).getD []) "file" (.str fullpath)
      match titleStep fullpath entry1 fc.2 with
      | Option.none => .error .valueErrorTitle
      | some ec =>
        let entry2 := normDates ec.1
        .ok (some (if metaOnly then entry2
                   else dictInsert entry2 "content" (.str (render ec.2))))

/-- Parse a run of decimal digits as an integer, `none` otherwise. -/
def parseIntQ (s : Str) : Option Int :=
  if s ≠ [] && s.all (fun c => c.isDigit) then
    some (Int.ofNat (s.foldl (fun acc c => acc * 10 + (c.toNat - 48)) 0))
  else Option.none

/-- One `key: value` line of the concrete YAML fragment. -/
def yamlMiniLine (line : Str) : Option (String × Val) :=
  match splitOnce (ofStr ": ") line with
  | some kv =>
    let v : Val :=
      if kv.2 = ofStr "true" then .bool true
      else if kv.2 = ofStr "false" then .bool false
      else match parseIntQ kv.2 with
        | some n => .int n
        | Option.none => .str kv.2
    some (String.mk kv.1, v)
  | Option.none => Option.none

/-- A concrete instance of the external `yaml.load` covering the frontmatter
documents used in concrete inputs below: one `key: value` mapping per line,
with `true`/`false`/integer scalars; a document with no such line (for
example the empty string) is Python `None`.  This agrees with PyYAML on
those documents. -/
def yamlMini (s : Str) : Option Dict :=
  let ls := (splitAll '\n' s).filterMap yamlMiniLine
  if ls.isEmpty then Option.none else some ls

/-- One step of `posixpath.normpath`'s component loop (CPython):
skip empty and `.` components; append a component unless it is a `..` that
cancels against a previous real component. -/
def normStep (initSlashes : Nat) (acc : List Str) (comp : Str) : List Str :=
  if comp = [] ∨ comp = ofStr "." then acc
  else if comp ≠ ofStr ".." ∨ (initSlashes = 0 ∧ acc = [])
      ∨ (acc ≠ [] ∧ acc.getLast? = some (ofStr "..")) then acc ++ [comp]
  else if acc ≠ [] then acc.dropLast else acc

/-- The number of leading slashes `posixpath.normpath` preserves (CPython:
two leading slashes are kept, one or three and more collapse to one). -/
def normpathInitSlashes (p : Str) : Nat :=
  if startsWith p (ofStr "//") && !startsWith p (ofStr "///") then 2
  else if startsWith p (ofStr "/") then 1 else 0

/-- `posixpath.normpath` (CPython). -/
def normpath (p : Str) : Str :=
  if p = [] then ofStr "."
  else
    let iS := normpathInitSlashes p
    let newComps := (splitAll '/' p).foldl (normStep iS) []
    let out := List.replicate iS '/' ++ joinChar '/' newComps
    if out = [] then ofStr "." else out

/-- One step of `posixpath.join` (CPython): an absolute component restarts
the path; otherwise insert a `/` unless the path so far is empty or already
ends with `/`. -/
def posixJoin1 (path b : Str) : Str :=
  if startsWith b (ofStr "/") then b
  else if path = [] ∨ endsWith path (ofStr "/") then path ++ b
  else path ++ '/' :: b

/-- `posixpath.join` over a non-empty list of parts. -/
def posixJoin : List Str → Str
  | [] => []
  | p :: rest => rest.foldl posixJoin1 p

/-- The per-component check of `werkzeug.security.safe_join` on POSIX
(`_os_alt_seps` is empty there): normalize a non-empty component, then
reject absolute components, `..`, and components starting with `../`. -/
def safeJoinChecks (f : Str) : Option Str :=
  let fn := if f ≠ [] then normpath f else f
  if startsWith fn (ofStr "/") ∨ fn = ofStr ".." ∨ startsWith fn (ofStr "../") then
    Option.none
  else some fn

/-- The component loop of `safe_join`: check every pathname in order,
failing on the first rejected one. -/
def safeJoinAux : List Str → Option (List Str)
  | [] => some []
  | f :: rest =>
    match safeJoinChecks f with
    | some fn => (safeJoinAux rest).map (fn :: ·)
    | Option.none => Option.none

/-- `werkzeug.security.safe_join(directory, *pathnames)` on POSIX. -/
def safeJoin (directory : Str) (pathnames : List Str) : Option Str :=
  let dir := if directory = [] then ofStr "." else directory
  (safeJoinAux pathnames).map (fun fs => posixJoin (dir :: fs))

/-- The generator loop of `load_entries` (lines 158–168): keep `.md` files,
skip files whose `safe_join` is rejected, skip missing files
(`load_entry` returned `None`), propagate parse errors.  `fs` maps a full
path to the file's content. -/
def loadEntriesCore (yaml : Str → Option Dict) (render : Str → Str)
    (metaOnly : Bool) (dirpath : Str) (fs : Str → Option Str) :
    List Str → Except PyErr (List Dict)
  | [] => .ok []
  | f :: rest =>
    if endsWith f (ofStr ".md") then
      match safeJoin dirpath [f] with
      | Option.none => loadEntriesCore yaml render metaOnly dirpath fs rest
      | some fullpath =>
        match loadEntry yaml render fullpath (fs fullpath) metaOnly with
        | .error e => .error e
        | .ok Option.none => loadEntriesCore yaml render metaOnly dirpath fs rest
        | .ok (some entry) =>
          (loadEntriesCore yaml render metaOnly dirpath fs rest).map (entry :: ·)
    else loadEntriesCore yaml render metaOnly dirpath fs rest

/-- `sys.maxsize` on a 64-bit build, the sort key substituted for a missing
`order`. -/
def sysMaxsize : Int := 9223372036854775807

/-- The sort key of line 171: `x.get("order", sys.maxsize)`.  A non-integer
`order` value would make Python's comparison raise `TypeError`; theorems
about sorting therefore assume `order` is an integer when present. -/
def orderKey (e : Dict) : Int :=
  match dictGet e "order" with
  | some (.int n) => n
  | _ => sysMaxsize

/-- Stable insertion of an element into a list sorted ascending by `key`:
the element is placed before the first position with a strictly larger…
more precisely before the first element whose key is not smaller, which is
exactly where Python's stable sort keeps an element arriving earlier in the
input. -/
def insertKey (key : Dict → Int) (x : Dict) : List Dict → List Dict
  | [] => [x]
  | y :: ys => if key y < key x then y :: insertKey key x ys else x :: y :: ys

/-- `entries.sort(key=…)`: Python's sort is stable and ascending; this
insertion sort computes the same list. -/
def sortByKey (key : Dict → Int) : List Dict → List Dict
  | [] => []
  | x :: xs => insertKey key x (sortByKey key xs)

/-- The filter of line 170: `x and not x.get("hide", False)`. -/
def keepEntry (x : Dict) : Bool := !x.isEmpty && !getTruthy x "hide"

/-- `load_entries` up to and including the filter (lines 152–170), before
sorting.  `files` is the `os.listdir` result in directory order. -/
def loadEntriesFiltered (yaml : Str → Option Dict) (render : Str → Str)
    (metaOnly : Bool) (dirpath : Str) (fs : Str → Option Str) (files : List Str) :
    Except PyErr (List Dict) :=
  (loadEntriesCore yaml render metaOnly dirpath fs files).map (List.filter keepEntry)

/-- `load_entries(dirpath, meta_only=…)` (lines 152–172): list, parse,
filter, sort by `order` (missing → `sys.maxsize`). -/
def loadEntries (yaml : Str → Option Dict) (render : Str → Str)
    (metaOnly : Bool) (dirpath : Str) (fs : Str → Option Str) (files : List Str) :
    Except PyErr (List Dict) :=
  (loadEntriesFiltered yaml render metaOnly dirpath fs files).map (sortByKey orderKey)

/-- The URL-to-file-path computation of `load_page` (lines 175–186):
`safe_join(pages_folder, *rel_url.split("/"))`, then directory-style URLs
get `index.md`, `.html` URLs get their extension replaced by `.md`, and
anything else gets `.md` appended.  `none` is "treated as not-found". -/
def loadPagePath (pagesFolder : Str) (relUrl : Str) : Option Str :=
  match safeJoin pagesFolder (splitAll '/' relUrl) with
  | Option.none => Option.none
  | some fullpath =>
    if endsWith fullpath (ofStr "/") then some (fullpath ++ ofStr "index.md")
    else if endsWith fullpath (ofStr ".html") then
      some (splitextRoot fullpath ++ ofStr ".md")
    else some (fullpath ++ ofStr ".md")

/-- `load_page(rel_url)` (lines 175–192) up to the `url_for` attachment,
which involves only the external routing layer. -/
def loadPage (yaml : Str → Option Dict) (render : Str → Str)
    (pagesFolder : Str) (fs : Str → Option Str) (relUrl : Str) :
    Except PyErr (Option Dict) :=
  match loadPagePath pagesFolder relUrl with
  | Option.none => .ok Option.none
  | some fullpath => loadEntry yaml render fullpath (fs fullpath) false

/-- The detail view built by `detail_view_for` (lines 222–233), up to the
`url_for` attachment: join `<name>.md` onto the collection folder
(404 when `safe_join` rejects it), load the entry in full mode
(404 when the file is missing).  `Option.none` models the 404. -/
def detailView (yaml : Str → Option Dict) (render : Str → Str)
    (folder : Str) (fs : Str → Option Str) (name : Str) :
    Except PyErr (Option Dict) :=
  match safeJoin folder [name ++ ofStr ".md"] with
  | Option.none => .ok Option.none
  | some entryFile =>
    match loadEntry yaml render entryFile (fs entryFile) false with
    | .error e => .error e
    | .ok Option.none => .ok Option.none
    | .ok (some entry) => .ok (some entry)

/-- `re.sub(r"-", "/", s, count=n)`: replace the first `n` hyphens. -/
def subHyphens : Nat → Str → Str
  | _, [] => []
  | 0, s => s
  | n + 1, c :: s =>
    if c = '-' then '/' :: subHyphens n s else c :: subHyphens (n + 1) s

/-- `re.sub(pat ++ "$", repl, s)` for a literal pattern: Python's `$` matches
at the end of the string or just before a final newline. -/
def subSuffix (pat repl s : Str) : Str :=
  if endsWith s pat then stripSuffix s pat ++ repl
  else if endsWith s (pat ++ ofStr "\n") then
    stripSuffix s (pat ++ ofStr "\n") ++ repl ++ ofStr "\n"
  else s

/-- `HookLinkHrefProcessor.path_to_url` (lines 69–88).  `root` is
`url_for("index").rstrip("/")`, supplied by the routing layer. -/
def path_to_url (root p : Str) : Str :=
  if startsWith p (ofStr "/posts/") then
    let url := root ++ ofStr "/post/" ++ p.drop 7
    let url := subHyphens 3 url
    subSuffix (ofStr ".md") (ofStr "/") url
  else if startsWith p (ofStr "/pages/") then
    let url := root ++ ofStr "/" ++ p.drop 7
    let url := subSuffix (ofStr "index.md") [] url
    subSuffix (ofStr ".md") (ofStr ".html") url
  else if startsWith p (ofStr "/raw/") then
    root ++ ofStr "/" ++ p.drop 5
  else p

deriving instance DecidableEq for Except

theorem dictGet_insert_self (d : Dict) (k : String) (v : Val) :
    dictGet (dictInsert d k v) k = some v := by
  induction d with
  | nil => simp [dictInsert, dictGet]
  | cons kv rest ih =>
    obtain ⟨k', v'⟩ := kv
    by_cases h : k' = k
    · simp [dictInsert, h, dictGet]
    · simp [dictInsert, h, dictGet, ih]

theorem dictGet_insert_ne (d : Dict) (k k' : String) (v : Val) (hk : k' ≠ k) :
    dictGet (dictInsert d k v) k' = dictGet d k' := by
  have hk2 : k ≠ k' := Ne.symm hk
  induction d with
  | nil => simp [dictInsert, dictGet, hk2]
  | cons kv rest ih =>
    obtain ⟨k'', v''⟩ := kv
    by_cases h : k'' = k
    · subst h
      simp [dictInsert, dictGet, hk2]
    · simp only [dictInsert, if_neg h, dictGet]
      by_cases h2 : k'' = k' <;> simp [h2, ih]

theorem dictContains_insert_self (d : Dict) (k : String) (v : Val) :
    dictContains (dictInsert d k v) k = true := by
  simp [dictContains, dictGet_insert_self]

theorem dictContains_insert_ne (d : Dict) (k k' : String) (v : Val) (hk : k' ≠ k) :
    dictContains (dictInsert d k v) k' = dictContains d k' := by
  simp [dictContains, dictGet_insert_ne d k k' v hk]

theorem dictContains_normDateKey (e : Dict) (k0 k : String) :
    dictContains (normDateKey e k0) k = dictContains e k := by
  unfold normDateKey
  cases hg : dictGet e k0 with
  | none => rfl
  | some v =>
    cases v with
    | date y m d =>
      by_cases h : k = k0
      · subst h
        simp [dictContains, dictGet_insert_self, hg]
      · simp [dictContains_insert_ne e k0 k _ h]
    | str s => rfl
    | bool b => rfl
    | int n => rfl
    | datetime y m d h mi sec => rfl
    | none => rfl

theorem dictContains_normDates (e : Dict) (k : String) :
    dictContains (normDates e) k = dictContains e k := by
  simp [normDates, dictContains_normDateKey]

theorem dictGet_normDateKey_ne (e : Dict) (k0 k : String) (h : k ≠ k0) :
    dictGet (normDateKey e k0) k = dictGet e k := by
  unfold normDateKey
  cases hg : dictGet e k0 with
  | none => rfl
  | some v =>
    cases v with
    | date y m d => simp [dictGet_insert_ne e k0 k _ h]
    | str s => rfl
    | bool b => rfl
    | int n => rfl
    | datetime y m d hh mi sec => rfl
    | none => rfl

theorem dictGet_normDates_ne (e : Dict) (k : String)
    (h1 : k ≠ "created") (h2 : k ≠ "updated") :
    dictGet (normDates e) k = dictGet e k := by
  simp [normDates, dictGet_normDateKey_ne _ _ _ h2, dictGet_normDateKey_ne _ _ _ h1]

theorem splitOnce_single_none {c : Char} {s : Str} (h : c ∉ s) :
    splitOnce [c] s = Option.none := by
  induction s with
  | nil => simp [splitOnce, isPre]
  | cons a as ih =>
    have hca : ¬ (c = a) := fun hh => h (hh ▸ List.mem_cons_self a as)
    have has : c ∉ as := fun hh => h (List.mem_cons_of_mem a hh)
    have hif : isPre [c] (a :: as) = false := by simp [isPre, hca]
    simp only [splitOnce, hif, Bool.false_eq_true, if_false, ih has]

theorem titleStep_contains {fullpath : Str} {entry1 : Dict} {content : Str}
    {ec : Dict × Str} (h : titleStep fullpath entry1 content = some ec) :
    dictContains ec.1 "title" = true := by
  unfold titleStep at h
  by_cases hc : dictContains entry1 "title"
  · rw [if_pos hc] at h
    cases h
    exact hc
  · rw [if_neg hc] at h
    by_cases hh : startsWith content (ofStr "# ")
    · rw [if_pos hh] at h
      cases hsp : splitOnce (ofStr "\n") content with
      | none => rw [hsp] at h; cases h
      | some tc =>
        rw [hsp] at h
        cases h
        exact dictContains_insert_self _ _ _
    · rw [if_neg hh] at h
      cases h
      exact dictContains_insert_self _ _ _

/-- C10 (confirmed): when a document has no `title` metadata and its body,
after frontmatter stripping and trimming, starts with `# ` but contains no
newline character, `load_entry` raises the `ValueError` of the failed
two-element unpacking of `content.split("\n", maxsplit=1)` instead of
returning an entry. -/
theorem c10_heading_without_newline_raises (yaml : Str → Option Dict)
    (render : Str → Str) (fullpath doc fm content : Str) (metaOnly : Bool)
    (hsplit : splitDoc doc = .ok (fm, content))
    (htitle : dictContains ((yaml fm).getD []) "title" = false)
    (hhead : startsWith content (ofStr "# ") = true)
    (hnl : '\n' ∉ content) :
    loadEntry yaml render fullpath (some doc) metaOnly = .error .valueErrorTitle := by
  have hc : dictContains (dictInsert ((yaml fm).getD []) "file" (.str fullpath))
      "title" = false := by
    rw [dictContains_insert_ne _ _ _ _ (by decide)]
    exact htitle
  have hn : splitOnce (ofStr "\n") content = Option.none := splitOnce_single_none hnl
  simp only [loadEntry, hsplit, titleStep, hc, Bool.false_eq_true, if_false, hhead,
    if_true, hn]

/-- Witness for C10 at the concrete single-line document `# hello`. -/
theorem c10_witness :
    loadEntry yamlMini id (ofStr "p.md") (some (ofStr "# hello")) true
      = .error .valueErrorTitle :=
  c10_heading_without_newline_raises yamlMini id (ofStr "p.md") (ofStr "# hello")
    [] (ofStr "# hello") true (by decide) (by decide) (by decide) (by decide)

/-- C8 (corrected): every entry returned by `load_entry` carries a `title`
key — but its value can be the empty string, so the claim's non-emptiness
fails (see the counterexample). -/
theorem c8_title_key_always_present (yaml : Str → Option Dict) (render : Str → Str)
    (fullpath : Str) (doc : Option Str) (metaOnly : Bool) (e : Dict)
    (h : loadEntry yaml render fullpath doc metaOnly = .ok (some e)) :
    dictContains e "title" = true := by
  match doc with
  | Option.none => simp [loadEntry] at h
  | some d =>
    simp only [loadEntry] at h
    split at h
    · simp at h
    · split at h
      · simp at h
      · rename_i ec heq2
        simp only [Except.ok.injEq, Option.some.injEq] at h
        subst h
        have hc : dictContains (normDates ec.1) "title" = true := by
          rw [dictContains_normDates]
          exact titleStep_contains heq2
        by_cases hm : metaOnly
        · simpa [hm] using hc
        · simp only [hm, Bool.false_eq_true, if_false]
          rw [dictContains_insert_ne _ _ _ _ (by decide)]
          exact hc

/-- Witness for the amended C8 at a concrete document. -/
theorem c8_witness :
    dictContains [(("file" : String), Val.str (ofStr "d/p.md")),
      ("title", Val.str (ofStr "p"))] "title" = true :=
  c8_title_key_always_present yamlMini id (ofStr "d/p.md") (some (ofStr "hello"))
    true _ (by decide)

/-- C8 counterexample: the document `---\n---\n# \t\nbody` (empty
frontmatter, heading line whose text is only whitespace) produces an entry
whose `title` is the empty string, refuting the non-emptiness claim. -/
theorem c8_counterexample :
    loadEntry yamlMini id (ofStr "p.md") (some (ofStr "---\n---\n# \t\nbody")) true
      = .ok (some [(("file" : String), Val.str (ofStr "p.md")),
                   ("title", Val.str [])]) := by
  decide

theorem loadEntry_eq (yaml : Str → Option Dict) (render : Str → Str)
    (fullpath d : Str) (metaOnly : Bool) (fc : Str × Str) (ec : Dict × Str)
    (hs : splitDoc d = .ok fc)
    (ht : titleStep fullpath (dictInsert ((yaml fc.1).getD []) "file" (.str fullpath))
        fc.2 = some ec) :
    loadEntry yaml render fullpath (some d) metaOnly =
      .ok (some (if metaOnly then normDates ec.1
                 else dictInsert (normDates ec.1) "content" (.str (render ec.2)))) := by
  simp only [loadEntry, hs, ht]

theorem dictGet_title_finish (render : Str → Str) (metaOnly : Bool) (e1 : Dict) (c : Str) :
    dictGet (if metaOnly then normDates e1
             else dictInsert (normDates e1) "content" (.str (render c))) "title"
      = dictGet e1 "title" := by
  by_cases hm : metaOnly
  · simp only [hm, if_true]
    exact dictGet_normDates_ne _ _ (by decide) (by decide)
  · simp only [hm, Bool.false_eq_true, if_false]
    rw [dictGet_insert_ne _ _ _ _ (by decide)]
    exact dictGet_normDates_ne _ _ (by decide) (by decide)

/-- C7 (confirmed): the title of a loaded entry is derived with the
precedence: explicit `title` metadata; else a leading `# ` heading is
consumed as the title and stripped from the body; else the file name
without extension with hyphens replaced by spaces. -/
theorem c7_title_precedence (yaml : Str → Option Dict) (render : Str → Str)
    (fullpath d fm content : Str) (metaOnly : Bool)
    (hs : splitDoc d = .ok (fm, content)) :
    (dictContains ((yaml fm).getD []) "title" = true →
      ∃ e, loadEntry yaml render fullpath (some d) metaOnly = .ok (some e) ∧
        dictGet e "title" = dictGet ((yaml fm).getD []) "title") ∧
    (dictContains ((yaml fm).getD []) "title" = false →
      startsWith content (ofStr "# ") = true →
      ∀ l1 rest, splitOnce (ofStr "\n") content = some (l1, rest) →
      ∃ e, loadEntry yaml render fullpath (some d) metaOnly = .ok (some e) ∧
        dictGet e "title" = some (.str (pyStrip (l1.drop 2))) ∧
        (metaOnly = false →
          dictGet e "content" = some (.str (render (pyStrip rest))))) ∧
    (dictContains ((yaml fm).getD []) "title" = false →
      startsWith content (ofStr "# ") = false →
      ∃ e, loadEntry yaml render fullpath (some d) metaOnly = .ok (some e) ∧
        dictGet e "title" = some (.str (humanizeTitle fullpath))) := by
  have hfile : ∀ k : String, k ≠ "file" →
      dictGet (dictInsert ((yaml fm).getD []) "file" (.str fullpath)) k
        = dictGet ((yaml fm).getD []) k :=
    fun k hk => dictGet_insert_ne _ _ _ _ hk
  have hcfile : dictContains (dictInsert ((yaml fm).getD []) "file" (.str fullpath))
      "title" = dictContains ((yaml fm).getD []) "title" :=
    dictContains_insert_ne _ _ _ _ (by decide)
  refine ⟨?_, ?_, ?_⟩
  · intro h1
    have ht : titleStep fullpath
        (dictInsert ((yaml fm).getD []) "file" (.str fullpath)) content
        = some (dictInsert ((yaml fm).getD []) "file" (.str fullpath), content) := by
      unfold titleStep
      rw [hcfile, h1, if_pos rfl]
    refine ⟨_, loadEntry_eq yaml render fullpath d metaOnly (fm, content) _ hs ht, ?_⟩
    rw [dictGet_title_finish]
    exact hfile "title" (by decide)
  · intro h1 h2 l1 rest h3
    have ht : titleStep fullpath
        (dictInsert ((yaml fm).getD []) "file" (.str fullpath)) content
        = some (dictInsert (dictInsert ((yaml fm).getD []) "file" (.str fullpath))
            "title" (.str (pyStrip (l1.drop 2))), pyStrip rest) := by
      unfold titleStep
      rw [hcfile, h1, if_neg (by simp), if_pos h2, h3]
    refine ⟨_, loadEntry_eq yaml render fullpath d metaOnly (fm, content) _ hs ht, ?_, ?_⟩
    · rw [dictGet_title_finish]
      exact dictGet_insert_self _ _ _
    · intro hm
      simp only [hm, Bool.false_eq_true, if_false]
      exact dictGet_insert_self _ _ _
  · intro h1 h2
    have ht : titleStep fullpath
        (dictInsert ((yaml fm).getD []) "file" (.str fullpath)) content
        = some (dictInsert (dictInsert ((yaml fm).getD []) "file" (.str fullpath))
            "title" (.str (humanizeTitle fullpath)), content) := by
      unfold titleStep
      rw [hcfile, h1, if_neg (by simp), if_neg (by simp [h2])]
    refine ⟨_, loadEntry_eq yaml render fullpath d metaOnly (fm, content) _ hs ht, ?_⟩
    rw [dictGet_title_finish]
    exact dictGet_insert_self _ _ _

/-- Witness for C7: the two concrete examples of the claim.  The document
`# My Title\nBody text` yields title `My Title` with the heading stripped
from the body; a document named `my-cool-post.md` with no heading yields
title `my cool post`. -/
theorem c7_witness :
    (∃ e, loadEntry yamlMini id (ofStr "my-cool-post.md")
        (some (ofStr "# My Title\nBody text")) false = .ok (some e) ∧
      dictGet e "title" = some (.str (ofStr "My Title")) ∧
      dictGet e "content" = some (.str (ofStr "Body text"))) ∧
    (∃ e, loadEntry yamlMini id (ofStr "my-cool-post.md")
        (some (ofStr "no heading here")) true = .ok (some e) ∧
      dictGet e "title" = some (.str (ofStr "my cool post"))) := by
  constructor
  · obtain ⟨e, he, ht, hc⟩ :=
      (c7_title_precedence yamlMini id (ofStr "my-cool-post.md")
        (ofStr "# My Title\nBody text") [] (ofStr "# My Title\n\nBody text") false
        (by decide)).2.1 (by decide) (by decide)
        (ofStr "# My Title") (ofStr "\nBody text") (by decide)
    refine ⟨e, he, ?_, ?_⟩
    · rw [ht]; decide
    · rw [hc rfl]; decide
  · obtain ⟨e, he, ht⟩ :=
      (c7_title_precedence yamlMini id (ofStr "my-cool-post.md")
        (ofStr "no heading here") [] (ofStr "no heading here") true
        (by decide)).2.2 (by decide) (by decide)
    refine ⟨e, he, ?_⟩
    rw [ht]; decide

theorem isPre_drop : ∀ p s : Str, isPre p s = true → p ++ s.drop p.length = s := by
  intro p
  induction p with
  | nil => intro s _; simp
  | cons a as ih =>
    intro s h
    cases s with
    | nil => simp [isPre] at h
    | cons b bs =>
      simp only [isPre, Bool.and_eq_true, decide_eq_true_eq] at h
      obtain ⟨hab, hpre⟩ := h
      subst hab
      simpa using ih bs hpre

theorem splitOnce_sound (sep : Str) :
    ∀ s a b, splitOnce sep s = some (a, b) → s = a ++ sep ++ b := by
  intro s
  induction s with
  | nil =>
    intro a b h
    cases sep with
    | nil =>
      simp only [splitOnce, isPre, if_pos] at h
      cases h
      rfl
    | cons c cs => simp [splitOnce, isPre] at h
  | cons c rest ih =>
    intro a b h
    unfold splitOnce at h
    by_cases hp : isPre sep (c :: rest) = true
    · rw [if_pos hp] at h
      cases h
      simp only [List.nil_append]
      exact (isPre_drop sep (c :: rest) hp).symm
    · rw [if_neg hp] at h
      cases hsp : splitOnce sep rest with
      | none => rw [hsp] at h; cases h
      | some p =>
        rw [hsp] at h
        cases h
        have := ih p.1 p.2 hsp
        simp [this]

/-- C1 (corrected): frontmatter detection of `load_entry`.  When the
whitespace-stripped first line is `---` and the token `---` occurs in the
stripped remainder, the metadata source is the text before the first such
occurrence and the body is the text after it, trimmed (the decomposition
conjunct exhibits the two delimiters).  When the stripped first line is not
`---`, the metadata is empty and the body is not the whole document but
`"\n\n".join([firstline, remained]).strip()` — first line and remainder,
each stripped, joined by a blank line. -/
theorem c1_frontmatter_detection (doc fl rest : Str)
    (hfl : splitFirstLine doc = (fl, rest)) :
    (pyStrip fl = ofStr "---" →
      ∀ fm after, splitOnce (ofStr "---") (pyStrip rest) = some (fm, after) →
        splitDoc doc = .ok (fm, pyStrip after) ∧
        pyStrip rest = fm ++ ofStr "---" ++ after) ∧
    (pyStrip fl ≠ ofStr "---" →
      splitDoc doc = .ok ([], pyStrip (pyStrip fl ++ ofStr "\n\n" ++ pyStrip rest))) := by
  constructor
  · intro h1 fm after h2
    refine ⟨?_, splitOnce_sound _ _ _ _ h2⟩
    simp only [splitDoc, hfl, h1, h2]
    simp
  · intro h1
    simp only [splitDoc, hfl, if_neg h1]

/-- Witness for the amended C1 at a concrete frontmatter document. -/
theorem c1_witness :
    splitDoc (ofStr "---\nfoo: 1\n---\nbody x")
        = .ok (ofStr "foo: 1\n", ofStr "body x") ∧
    ofStr "foo: 1\n---\nbody x" = ofStr "foo: 1\n" ++ ofStr "---" ++ ofStr "\nbody x" := by
  obtain ⟨h1, h2⟩ :=
    (c1_frontmatter_detection (ofStr "---\nfoo: 1\n---\nbody x") (ofStr "---")
      (ofStr "foo: 1\n---\nbody x") (by decide)).1 (by decide)
      (ofStr "foo: 1\n") (ofStr "\nbody x") (by decide)
  refine ⟨?_, h2⟩
  rw [h1]
  decide

/-- C1 counterexample: for the document `a\nb`, whose first line is not the
delimiter, the body computed by `load_entry` is `a\n\nb` — the first line
and the remainder joined by a blank line — which differs from the entire
document `a\nb`, refuting the claim's "the entire document is the body". -/
theorem c1_counterexample :
    splitDoc (ofStr "a\nb") = .ok ([], ofStr "a\n\nb") ∧
    ofStr "a\n\nb" ≠ ofStr "a\nb" := by
  decide

theorem isPre_self_append : ∀ p q : Str, isPre p (p ++ q) = true := by
  intro p q
  induction p with
  | nil => rfl
  | cons a as ih => simp [isPre, ih]

theorem endsWith_append (x pat : Str) : endsWith (x ++ pat) pat = true := by
  unfold endsWith
  rw [List.reverse_append]
  exact isPre_self_append _ _

theorem stripSuffix_append (x pat : Str) : stripSuffix (x ++ pat) pat = x := by
  unfold stripSuffix
  rw [List.reverse_append, show pat.length = pat.reverse.length from (List.length_reverse pat).symm,
    List.drop_left, List.reverse_reverse]

theorem subSuffix_append (pat repl x : Str) :
    subSuffix pat repl (x ++ pat) = x ++ repl := by
  unfold subSuffix
  rw [if_pos (endsWith_append x pat), stripSuffix_append]

theorem subHyphens_zero : ∀ s : Str, subHyphens 0 s = s := by
  intro s
  cases s <;> rfl

theorem subHyphens_hyphen (n : Nat) (s : Str) :
    subHyphens (n + 1) ('-' :: s) = '/' :: subHyphens n s := by
  simp [subHyphens]

theorem subHyphens_append_no (n : Nat) (a b : Str) (h : '-' ∉ a) :
    subHyphens n (a ++ b) = a ++ subHyphens n b := by
  induction a with
  | nil => simp
  | cons c cs ih =>
    have hc : ¬ (c = '-') := fun hh => h (hh ▸ List.mem_cons_self c cs)
    have hcs : '-' ∉ cs := fun hh => h (List.mem_cons_of_mem _ hh)
    cases n with
    | zero => simp [subHyphens_zero]
    | succ k => simp [subHyphens, hc, ih hcs]

/-- C3 (corrected): dated-post resolution, provided the resolved application
root contains no hyphen.  The `count=3` hyphen substitution is applied to
the whole URL string including the root, so with a hyphen-free root exactly
the first three hyphens of the filename become path separators and hyphens
inside the slug survive. -/
theorem c3_dated_post_resolution (root y m d slug : Str)
    (hroot : '-' ∉ root) (hy : '-' ∉ y) (hm : '-' ∉ m) (hd : '-' ∉ d) :
    path_to_url root (ofStr "/posts/" ++ y ++ ofStr "-" ++ m ++ ofStr "-" ++ d
        ++ ofStr "-" ++ slug ++ ofStr ".md")
      = root ++ ofStr "/post/" ++ y ++ ofStr "/" ++ m ++ ofStr "/" ++ d
        ++ ofStr "/" ++ slug ++ ofStr "/" := by
  have hpost : '-' ∉ ofStr "/post/" := by decide
  have hassoc : ofStr "/posts/" ++ y ++ ofStr "-" ++ m ++ ofStr "-" ++ d
      ++ ofStr "-" ++ slug ++ ofStr ".md"
      = ofStr "/posts/" ++ (y ++ ('-' :: (m ++ ('-' :: (d ++ ('-' :: (slug
          ++ ofStr ".md")))))))  := by
    simp [List.append_assoc, ofStr]
  rw [hassoc]
  have hstart : startsWith (ofStr "/posts/" ++ (y ++ ('-' :: (m ++ ('-' :: (d
      ++ ('-' :: (slug ++ ofStr ".md")))))))) (ofStr "/posts/") = true :=
    isPre_self_append _ _
  have hdrop : (ofStr "/posts/" ++ (y ++ ('-' :: (m ++ ('-' :: (d ++ ('-' :: (slug
      ++ ofStr ".md")))))))).drop 7
      = y ++ ('-' :: (m ++ ('-' :: (d ++ ('-' :: (slug ++ ofStr ".md")))))) := by
    rw [show (7 : Nat) = (ofStr "/posts/").length from rfl, List.drop_left]
  simp only [path_to_url, hstart, if_true, hdrop]
  rw [show root ++ ofStr "/post/" ++ (y ++ ('-' :: (m ++ ('-' :: (d ++ ('-' :: (slug
      ++ ofStr ".md"))))))) = root ++ (ofStr "/post/" ++ (y ++ ('-' :: (m
      ++ ('-' :: (d ++ ('-' :: (slug ++ ofStr ".md")))))))) from by
    simp [List.append_assoc]]
  rw [subHyphens_append_no _ _ _ hroot, subHyphens_append_no _ _ _ hpost,
    subHyphens_append_no _ _ _ hy, subHyphens_hyphen,
    subHyphens_append_no _ _ _ hm, subHyphens_hyphen,
    subHyphens_append_no _ _ _ hd, subHyphens_hyphen, subHyphens_zero]
  rw [show root ++ (ofStr "/post/" ++ (y ++ ('/' :: (m ++ ('/' :: (d ++ ('/' :: (slug
      ++ ofStr ".md"))))))))
      = (root ++ ofStr "/post/" ++ y ++ ofStr "/" ++ m ++ ofStr "/" ++ d
          ++ ofStr "/" ++ slug) ++ ofStr ".md" from by
    simp [List.append_assoc, ofStr]]
  rw [subSuffix_append]

/-- Witness for the amended C3 at the concrete slug-with-hyphens example of
the claim, with the empty root. -/
theorem c3_witness :
    path_to_url [] (ofStr "/posts/2021-08-23-hello-there-world.md")
      = ofStr "/post/2021/08/23/hello-there-world/" := by
  have h := c3_dated_post_resolution [] (ofStr "2021") (ofStr "08") (ofStr "23")
    (ofStr "hello-there-world") (by decide) (by decide) (by decide) (by decide)
  rw [(by decide : ofStr "/posts/2021-08-23-hello-there-world.md"
    = ofStr "/posts/" ++ ofStr "2021" ++ ofStr "-" ++ ofStr "08" ++ ofStr "-"
      ++ ofStr "23" ++ ofStr "-" ++ ofStr "hello-there-world" ++ ofStr ".md")]
  rw [(by decide : ofStr "/post/2021/08/23/hello-there-world/"
    = ([] : Str) ++ ofStr "/post/" ++ ofStr "2021" ++ ofStr "/" ++ ofStr "08"
      ++ ofStr "/" ++ ofStr "23" ++ ofStr "/" ++ ofStr "hello-there-world"
      ++ ofStr "/")]
  exact h

/-- C3 counterexample: with application root `/my-blog` (a build rooted at
`http://example.com/my-blog/`), the `count=3` substitution consumes the
root's hyphen, so only the first two date hyphens of the filename are
converted and the result is not `<root>/post/2021/08/23/hello-there-world/`. -/
theorem c3_counterexample :
    path_to_url (ofStr "/my-blog") (ofStr "/posts/2021-08-23-hello-there-world.md")
      = ofStr "/my/blog/post/2021/08/23-hello-there-world/" ∧
    ofStr "/my/blog/post/2021/08/23-hello-there-world/"
      ≠ ofStr "/my-blog/post/2021/08/23/hello-there-world/" := by
  decide

/-- C5 (code bug): the claim — and the code's own comment
`# /pages/foo/bar.md -> /foo/bar.html` — says `myindex.md` should become
`myindex.html`, but the unanchored `index\.md$` substitution also fires on
basenames that merely end in `index`, producing `<root>/a/my`. -/
theorem c5_failing_eval :
    path_to_url [] (ofStr "/pages/a/myindex.md") = ofStr "/a/my" ∧
    ofStr "/a/my" ≠ ofStr "/a/myindex.html" := by
  decide

theorem insertKey_mem (key : Dict → Int) (x : Dict) (l : List Dict) (b : Dict) :
    b ∈ insertKey key x l ↔ b = x ∨ b ∈ l := by
  induction l with
  | nil => simp [insertKey]
  | cons y ys ih =>
    by_cases hc : key y < key x
    · simp only [insertKey, if_pos hc, List.mem_cons, ih]
      tauto
    · simp only [insertKey, if_neg hc, List.mem_cons]

theorem insertKey_pairwise (key : Dict → Int) (x : Dict) (l : List Dict)
    (h : l.Pairwise (fun a b => key a ≤ key b)) :
    (insertKey key x l).Pairwise (fun a b => key a ≤ key b) := by
  induction l with
  | nil => simp [insertKey]
  | cons y ys ih =>
    rw [List.pairwise_cons] at h
    obtain ⟨hy, hys⟩ := h
    by_cases hc : key y < key x
    · rw [insertKey, if_pos hc, List.pairwise_cons]
      refine ⟨?_, ih hys⟩
      intro b hb
      rcases (insertKey_mem key x ys b).mp hb with hb | hb
      · exact hb ▸ le_of_lt hc
      · exact hy b hb
    · rw [insertKey, if_neg hc, List.pairwise_cons]
      refine ⟨?_, List.pairwise_cons.mpr ⟨hy, hys⟩⟩
      intro b hb
      rcases List.mem_cons.mp hb with hb | hb
      · exact hb ▸ not_lt.mp hc
      · exact le_trans (not_lt.mp hc) (hy b hb)

theorem sortByKey_pairwise (key : Dict → Int) (l : List Dict) :
    (sortByKey key l).Pairwise (fun a b => key a ≤ key b) := by
  induction l with
  | nil => simp [sortByKey]
  | cons x xs ih => exact insertKey_pairwise key x _ ih

theorem insertKey_filter_eq (key : Dict → Int) (k : Int) (x : Dict) (l : List Dict)
    (hx : key x = k) :
    (insertKey key x l).filter (fun e => key e == k)
      = x :: l.filter (fun e => key e == k) := by
  induction l with
  | nil => simp [insertKey, List.filter, hx]
  | cons y ys ih =>
    by_cases hc : key y < key x
    · have hyk : ¬ (key y == k) := by
        simp only [beq_iff_eq]
        omega
    -- key y < key x = k, so y is dropped by the filter on both sides
      rw [insertKey, if_pos hc]
      simp only [List.filter_cons, hyk, Bool.false_eq_true, if_false, ih]
    · rw [insertKey, if_neg hc]
      simp [List.filter_cons, hx]

theorem insertKey_filter_ne (key : Dict → Int) (k : Int) (x : Dict) (l : List Dict)
    (hx : key x ≠ k) :
    (insertKey key x l).filter (fun e => key e == k)
      = l.filter (fun e => key e == k) := by
  have hxk : ¬ (key x == k) := by simpa using hx
  induction l with
  | nil => simp [insertKey, List.filter, hxk]
  | cons y ys ih =>
    by_cases hc : key y < key x
    · rw [insertKey, if_pos hc]
      simp only [List.filter_cons, ih]
    · rw [insertKey, if_neg hc]
      simp only [List.filter_cons, hxk, Bool.false_eq_true, if_false]

theorem sortByKey_filter (key : Dict → Int) (k : Int) (l : List Dict) :
    (sortByKey key l).filter (fun e => key e == k)
      = l.filter (fun e => key e == k) := by
  induction l with
  | nil => rfl
  | cons x xs ih =>
    by_cases hx : key x = k
    · rw [sortByKey, insertKey_filter_eq key k x _ hx, ih]
      simp [List.filter_cons, hx]
    · rw [sortByKey, insertKey_filter_ne key k x _ hx, ih]
      have hxk : ¬ (key x == k) := by simpa using hx
      simp [List.filter_cons, hxk]

/-- C6 (corrected): `load_entries` returns the kept entries sorted ascending
by `x.get("order", sys.maxsize)`, stably (for every key value, the entries
with that key keep their directory-listing relative order).  Entries lacking
`order` sort after every entry whose `order` is below `sys.maxsize`; they do
not sort after an entry whose `order` equals `sys.maxsize` (see the
counterexample), so the claim's unconditional "missing sorts last" is
corrected to that bound. -/
theorem c6_order_sort (yaml : Str → Option Dict) (render : Str → Str)
    (metaOnly : Bool) (dirpath : Str) (fs : Str → Option Str) (files : List Str)
    (pre : List Dict)
    (hpre : loadEntriesFiltered yaml render metaOnly dirpath fs files = .ok pre)
    (hnum : pre.all (fun e =>
      match dictGet e "order" with
      | Option.none => true
      | some (.int _) => true
      | _ => false) = true) :
    loadEntries yaml render metaOnly dirpath fs files = .ok (sortByKey orderKey pre) ∧
    (sortByKey orderKey pre).Pairwise (fun a b => orderKey a ≤ orderKey b) ∧
    (∀ k : Int, (sortByKey orderKey pre).filter (fun e => orderKey e == k)
      = pre.filter (fun e => orderKey e == k)) ∧
    (sortByKey orderKey pre).Pairwise
      (fun a b => dictGet a "order" = Option.none → sysMaxsize ≤ orderKey b) := by
  refine ⟨?_, sortByKey_pairwise orderKey pre, fun k => sortByKey_filter orderKey k pre, ?_⟩
  · unfold loadEntries
    rw [hpre]
    rfl
  · refine (sortByKey_pairwise orderKey pre).imp ?_
    intro a b hab ha
    have : orderKey a = sysMaxsize := by
      unfold orderKey
      rw [ha]
    omega

/-- Witness for the amended C6 at two concrete entries with orders 2 and 1:
the sorted output is ascending by `order`. -/
theorem c6_witness :
    (sortByKey orderKey
      [[(("order" : String), Val.int 2), ("file", Val.str (ofStr "d/a.md")),
        ("title", Val.str (ofStr "a"))],
       [(("order" : String), Val.int 1), ("file", Val.str (ofStr "d/b.md")),
        ("title", Val.str (ofStr "b"))]]).Pairwise
      (fun a b => orderKey a ≤ orderKey b) := by
  have h := c6_order_sort yamlMini id true (ofStr "d")
    (fun p => if p = ofStr "d/a.md" then some (ofStr "---\norder: 2\n---\nx")
      else if p = ofStr "d/b.md" then some (ofStr "---\norder: 1\n---\nx")
      else Option.none)
    [ofStr "a.md", ofStr "b.md"]
    [[(("order" : String), Val.int 2), ("file", Val.str (ofStr "d/a.md")),
      ("title", Val.str (ofStr "a"))],
     [(("order" : String), Val.int 1), ("file", Val.str (ofStr "d/b.md")),
      ("title", Val.str (ofStr "b"))]]
    (by decide) (by decide)
  exact h.2.1

/-- C6 counterexample: the first listed entry lacks `order` and the second
carries `order = sys.maxsize`; with the stable sort on equal keys the
order-less entry stays *before* the entry that has an `order`, refuting
"every entry lacking `order` is sorted after all entries that have one". -/
theorem c6_counterexample :
    loadEntries yamlMini id true (ofStr "d")
      (fun p => if p = ofStr "d/a.md" then some (ofStr "hello")
        else if p = ofStr "d/b.md" then
          some (ofStr "---\norder: 9223372036854775807\n---\nx")
        else Option.none)
      [ofStr "a.md", ofStr "b.md"]
    = .ok [[(("file" : String), Val.str (ofStr "d/a.md")),
            ("title", Val.str (ofStr "a"))],
           [(("order" : String), Val.int sysMaxsize),
            ("file", Val.str (ofStr "d/b.md")),
            ("title", Val.str (ofStr "b"))]] := by
  decide

theorem sortByKey_mem (key : Dict → Int) (l : List Dict) (b : Dict) :
    b ∈ sortByKey key l ↔ b ∈ l := by
  induction l with
  | nil => simp [sortByKey]
  | cons x xs ih =>
    rw [sortByKey, insertKey_mem, ih, List.mem_cons]

/-- C4 (corrected): the listing filter tests the key `hide`, not `hidden`:
every entry in a `load_entries` result has a falsy `hide`, and the detail
view loads an entry regardless of any hide marker.  The claim's key name
`hidden` is wrong — see the counterexample, where a `hidden: true` entry
still appears in the listing. -/
theorem c4_hide_filter (yaml : Str → Option Dict) (render : Str → Str)
    (metaOnly : Bool) (dirpath : Str) (fs : Str → Option Str) (files : List Str)
    (l : List Dict)
    (hl : loadEntries yaml render metaOnly dirpath fs files = .ok l) :
    (∀ e ∈ l, getTruthy e "hide" = false) ∧
    (∀ folder name p entry, safeJoin folder [name ++ ofStr ".md"] = some p →
      loadEntry yaml render p (fs p) false = .ok (some entry) →
      detailView yaml render folder fs name = .ok (some entry)) := by
  constructor
  · intro e he
    unfold loadEntries at hl
    cases hf : loadEntriesFiltered yaml render metaOnly dirpath fs files with
    | error er => rw [hf] at hl; cases hl
    | ok pre =>
      rw [hf] at hl
      simp only [Except.map, Except.ok.injEq] at hl
      subst hl
      have hpre : e ∈ pre := (sortByKey_mem orderKey pre e).mp he
      unfold loadEntriesFiltered at hf
      cases hc : loadEntriesCore yaml render metaOnly dirpath fs files with
      | error er => rw [hc] at hf; cases hf
      | ok base =>
        rw [hc] at hf
        simp only [Except.map, Except.ok.injEq] at hf
        subst hf
        have hk : keepEntry e = true := List.of_mem_filter hpre
        unfold keepEntry at hk
        simp only [Bool.and_eq_true, Bool.not_eq_true'] at hk
        exact hk.2
  · intro folder name p entry hj hle
    unfold detailView
    simp only [hj, hle]

/-- Witness for the amended C4: an entry marked `hide: true` is excluded
from the listing of its directory yet the detail view still loads it when
addressed by name. -/
theorem c4_witness :
    detailView yamlMini id (ofStr "d")
      (fun p => if p = ofStr "d/h.md"
        then some (ofStr "---\nhide: true\n---\nx") else Option.none)
      (ofStr "h")
    = .ok (some [(("hide" : String), Val.bool true),
                 ("file", Val.str (ofStr "d/h.md")),
                 ("title", Val.str (ofStr "h")),
                 ("content", Val.str (ofStr "x"))]) := by
  have h := c4_hide_filter yamlMini id true (ofStr "d")
    (fun p => if p = ofStr "d/h.md"
      then some (ofStr "---\nhide: true\n---\nx") else Option.none)
    [ofStr "h.md"] [] (by decide)
  exact h.2 (ofStr "d") (ofStr "h") (ofStr "d/h.md") _ (by decide) (by decide)

/-- C4 counterexample: a collection entry whose metadata sets
`hidden: true` is **not** excluded from the `load_entries` result — the
code filters on `hide`, so the entry appears in the listing. -/
theorem c4_counterexample :
    loadEntries yamlMini id true (ofStr "d")
      (fun p => if p = ofStr "d/a.md"
        then some (ofStr "---\nhidden: true\n---\nx") else Option.none)
      [ofStr "a.md"]
    = .ok [[(("hidden" : String), Val.bool true),
            ("file", Val.str (ofStr "d/a.md")),
            ("title", Val.str (ofStr "a"))]] := by
  decide

theorem rev_md : (ofStr ".md").reverse = ['d', 'm', '.'] := rfl

theorem rev_slash : (ofStr "/").reverse = ['/'] := rfl

theorem rev_indexmd : (ofStr "index.md").reverse
    = ['d', 'm', '.'] ++ (ofStr "index").reverse := rfl

theorem isPre_true_step (c : Char) (cs ds : Str) :
    isPre (c :: cs) (c :: ds) = isPre cs ds := by
  simp [isPre]

theorem isPre_false_step (c d : Char) (cs ds : Str) (h : ¬ (c = d)) :
    isPre (c :: cs) (d :: ds) = false := by
  simp [isPre, h]

theorem isPre_cancel (s p q : Str) : isPre (s ++ p) (s ++ q) = isPre p q := by
  induction s with
  | nil => rfl
  | cons c cs ih => simpa [isPre] using ih

theorem isPre_mem {p s : Str} (h : isPre p s = true) {c : Char} (hc : c ∈ p) :
    c ∈ s := by
  induction p generalizing s with
  | nil => cases hc
  | cons a as ih =>
    cases s with
    | nil => simp [isPre] at h
    | cons b bs =>
      simp only [isPre, Bool.and_eq_true, decide_eq_true_eq] at h
      obtain ⟨hab, hpre⟩ := h
      rcases List.mem_cons.mp hc with hc | hc
      · exact hc ▸ hab ▸ List.mem_cons_self b bs
      · exact List.mem_cons_of_mem b (ih hpre hc)

theorem isPre_through_sep {pat x y : Str} {c : Char} (hc : c ∉ pat)
    (h : isPre pat (x ++ c :: y) = true) : isPre pat x = true := by
  induction pat generalizing x with
  | nil => rfl
  | cons a as ih =>
    cases x with
    | nil =>
      simp only [List.nil_append, isPre, Bool.and_eq_true, decide_eq_true_eq] at h
      exact absurd (h.1 ▸ List.mem_cons_self a as) (by simpa [h.1] using hc)
    | cons b bs =>
      simp only [List.cons_append, isPre, Bool.and_eq_true, decide_eq_true_eq] at h
      obtain ⟨hab, hpre⟩ := h
      have has : c ∉ as := fun hh => hc (List.mem_cons_of_mem a hh)
      subst hab
      rw [isPre_true_step]
      exact ih has hpre

theorem endsWith_last_ne (x q : Str) (c d : Char) (h : ¬ (d = c)) :
    endsWith (x ++ [c]) (q ++ [d]) = false := by
  unfold endsWith
  rw [List.reverse_append, List.reverse_append]
  simpa using isPre_false_step d c (q.reverse) (x.reverse) h

theorem endsWith_slash_false (z a : Str) (ha : a ≠ []) (hs : '/' ∉ a) :
    endsWith (z ++ a) (ofStr "/") = false := by
  obtain ⟨c, rest, hrev⟩ : ∃ c rest, a.reverse = c :: rest := by
    cases hr : a.reverse with
    | nil => exact absurd (List.reverse_eq_nil_iff.mp hr) ha
    | cons c rest => exact ⟨c, rest, rfl⟩
  have hc : c ∈ a := List.mem_reverse.mp (hrev ▸ List.mem_cons_self c rest)
  unfold endsWith
  rw [List.reverse_append, hrev, rev_slash]
  exact isPre_false_step '/' c [] _ (fun hh => hs (hh ▸ hc))

theorem endsWith_index_elim {z b : Str}
    (hb : endsWith b (ofStr "index") = false) :
    endsWith (z ++ '/' :: (b ++ ofStr ".md")) (ofStr "index.md") = false := by
  cases hE : endsWith (z ++ '/' :: (b ++ ofStr ".md")) (ofStr "index.md") with
  | false => rfl
  | true =>
    exfalso
    unfold endsWith at hE
    rw [rev_indexmd] at hE
    have hshape : (z ++ '/' :: (b ++ ofStr ".md")).reverse
        = ['d', 'm', '.'] ++ (b.reverse ++ '/' :: z.reverse) := by
      simp [List.reverse_append, List.append_assoc, rev_md]
    rw [hshape, isPre_cancel] at hE
    have := isPre_through_sep (by decide) hE
    unfold endsWith at hb
    rw [this] at hb
    cases hb

theorem splitAll_ne_nil (c : Char) (s : Str) : splitAll c s ≠ [] := by
  cases s with
  | nil => simp [splitAll]
  | cons a as =>
    unfold splitAll
    by_cases hac : a = c
    · simp [hac]
    · rw [if_neg hac]
      cases hs : splitAll c as with
      | nil => simp
      | cons x xs => simp

theorem splitAll_cons_sep (c : Char) (as : Str) :
    splitAll c (c :: as) = [] :: splitAll c as := by
  simp [splitAll]

theorem splitAll_cons_ne (c a : Char) (as : Str) (h : ¬ (a = c)) (s : Str)
    (ss : List Str) (hs : splitAll c as = s :: ss) :
    splitAll c (a :: as) = (a :: s) :: ss := by
  unfold splitAll
  rw [if_neg h, hs]

theorem splitAll_sep (c : Char) (x y : Str) :
    splitAll c (x ++ c :: y) = splitAll c x ++ splitAll c y := by
  induction x with
  | nil => simp [splitAll]
  | cons a as ih =>
    by_cases hac : a = c
    · subst hac
      rw [List.cons_append, splitAll_cons_sep, splitAll_cons_sep, ih, List.cons_append]
    · obtain ⟨s, ss, hs⟩ : ∃ s ss, splitAll c as = s :: ss := by
        cases hq : splitAll c as with
        | nil => exact absurd hq (splitAll_ne_nil c as)
        | cons q qs => exact ⟨q, qs, rfl⟩
      have hs2 : splitAll c (as ++ c :: y) = s :: (ss ++ splitAll c y) := by
        rw [ih, hs, List.cons_append]
      rw [List.cons_append,
        splitAll_cons_ne c a (as ++ c :: y) hac s (ss ++ splitAll c y) hs2,
        splitAll_cons_ne c a as hac s ss hs, List.cons_append]

theorem splitAll_no_sep (c : Char) (x : Str) (h : c ∉ x) :
    splitAll c x = [x] := by
  induction x with
  | nil => rfl
  | cons a as ih =>
    have hac : ¬ (a = c) := fun hh => h (hh ▸ List.mem_cons_self a as)
    have has : c ∉ as := fun hh => h (List.mem_cons_of_mem a hh)
    simp only [splitAll, if_neg hac, ih has]

theorem joinChar_splitAll (c : Char) (s : Str) :
    joinChar c (splitAll c s) = s := by
  induction s with
  | nil => rfl
  | cons a as ih =>
    unfold splitAll
    by_cases hac : a = c
    · subst hac
      cases hs : splitAll a as with
      | nil => exact absurd hs (splitAll_ne_nil a as)
      | cons x xs =>
        rw [if_pos rfl]
        rw [hs] at ih
        simpa [joinChar] using ih
    · rw [if_neg hac]
      cases hs : splitAll c as with
      | nil => exact absurd hs (splitAll_ne_nil c as)
      | cons x xs =>
        rw [hs] at ih
        cases xs with
        | nil => simpa [joinChar] using ih
        | cons y ys => simpa [joinChar] using ih

theorem joinChar_cons2 (c : Char) (s t : Str) (ts : List Str) :
    joinChar c (s :: t :: ts) = s ++ c :: joinChar c (t :: ts) := rfl

theorem joinChar_concat (c : Char) (xs : List Str) (x : Str) (hxs : xs ≠ []) :
    joinChar c (xs ++ [x]) = joinChar c xs ++ c :: x := by
  induction xs with
  | nil => exact absurd rfl hxs
  | cons s ss ih =>
    cases ss with
    | nil => simp [joinChar]
    | cons t ts =>
      have h2 := ih (by simp)
      simp only [List.cons_append] at h2 ⊢
      rw [joinChar_cons2, h2, joinChar_cons2]
      simp [List.append_assoc]

theorem startsWith_slash_false (a : Str) (ha : a ≠ []) (hs : '/' ∉ a) :
    startsWith a (ofStr "/") = false := by
  obtain ⟨c, rest, hf⟩ : ∃ c rest, a = c :: rest := by
    cases hq : a with
    | nil => exact absurd hq ha
    | cons c r => exact ⟨c, r, rfl⟩
  have hc : ¬ ('/' = c) := fun hh => hs (hf ▸ (hh ▸ List.mem_cons_self c rest))
  rw [hf]
  exact isPre_false_step '/' c [] rest hc

theorem normpath_single (f : Str) (h1 : '/' ∉ f) (h2 : f ≠ [])
    (h3 : f ≠ ofStr ".") (h4 : f ≠ ofStr "..") : normpath f = f := by
  obtain ⟨c, rest, hf⟩ : ∃ c rest, f = c :: rest := by
    cases hq : f with
    | nil => exact absurd hq h2
    | cons c r => exact ⟨c, r, rfl⟩
  have hc : ¬ ('/' = c) := fun hh => h1 (hf ▸ (hh ▸ List.mem_cons_self c rest))
  have hs1 : startsWith f (ofStr "/") = false := by
    rw [hf]; exact isPre_false_step '/' c [] rest hc
  have hs2 : startsWith f (ofStr "//") = false := by
    rw [hf]; exact isPre_false_step '/' c ['/'] rest hc
  have hcomps : splitAll '/' f = [f] := splitAll_no_sep '/' f h1
  have hstep : normStep 0 [] f = [f] := by
    unfold normStep
    rw [if_neg (by simp [h2, h3]), if_pos (Or.inl h4)]
    rfl
  have hiS : normpathInitSlashes f = 0 := by
    unfold normpathInitSlashes
    rw [hs1, hs2]
    simp
  unfold normpath
  rw [if_neg h2]
  dsimp only
  rw [hiS, hcomps]
  simp only [List.foldl_cons, List.foldl_nil, hstep, List.replicate,
    List.nil_append, joinChar]
  rw [if_neg h2]

theorem safeJoinChecks_id (f : Str) (h1 : '/' ∉ f) (h2 : f ≠ [])
    (h3 : f ≠ ofStr ".") (h4 : f ≠ ofStr "..") : safeJoinChecks f = some f := by
  have hn : normpath f = f := normpath_single f h1 h2 h3 h4
  have hs1 : startsWith f (ofStr "/") = false := startsWith_slash_false f h2 h1
  have hs3 : startsWith f (ofStr "../") = false := by
    cases hE : startsWith f (ofStr "../") with
    | false => rfl
    | true => exact absurd (isPre_mem hE (by decide)) h1
  unfold safeJoinChecks
  rw [if_pos h2, hn]
  rw [if_neg ?_]
  intro hor
  rcases hor with h | h | h
  · rw [hs1] at h; cases h
  · exact h4 h
  · rw [hs3] at h; cases h

theorem safeJoinChecks_nil : safeJoinChecks [] = some [] := by decide

theorem safeJoin_eq (d : Str) (hd : d ≠ []) (ps : List Str) (fs : List Str)
    (h : safeJoinAux ps = some fs) :
    safeJoin d ps = some (posixJoin (d :: fs)) := by
  unfold safeJoin
  rw [if_neg hd, h]
  rfl

theorem safeJoinAux_pair (x y fx fy : Str) (hx : safeJoinChecks x = some fx)
    (hy : safeJoinChecks y = some fy) : safeJoinAux [x, y] = some [fx, fy] := by
  simp [safeJoinAux, hx, hy]

theorem posixJoin1_sep (path b : Str) (hp : path ≠ [])
    (hpe : endsWith path (ofStr "/") = false)
    (hb : startsWith b (ofStr "/") = false) :
    posixJoin1 path b = path ++ '/' :: b := by
  unfold posixJoin1
  rw [hb]
  simp only [Bool.false_eq_true, if_false]
  rw [if_neg ?_]
  intro hor
  rcases hor with h | h
  · exact hp h
  · rw [hpe] at h; cases h

theorem posixJoin1_after_sep (path b : Str)
    (hpe : endsWith path (ofStr "/") = true)
    (hb : startsWith b (ofStr "/") = false) :
    posixJoin1 path b = path ++ b := by
  unfold posixJoin1
  rw [hb]
  simp only [Bool.false_eq_true, if_false]
  rw [if_pos (Or.inr hpe)]

theorem posixJoin_pair (d x y : Str) : posixJoin [d, x, y]
    = posixJoin1 (posixJoin1 d x) y := by
  simp [posixJoin, List.foldl]

theorem drop_takeWhile_length (p : Char → Bool) (l : Str) :
    l.drop (l.takeWhile p).length = l.dropWhile p := by
  induction l with
  | nil => rfl
  | cons a as ih =>
    by_cases hp : p a
    · simp [List.takeWhile_cons, List.dropWhile_cons, hp, ih]
    · simp [List.takeWhile_cons, List.dropWhile_cons, hp]

theorem takeWhile_append_of_stop (p : Char → Bool) (b z : Str)
    (hb : b.dropWhile p ≠ []) :
    (b ++ z).takeWhile p = b.takeWhile p ∧
    (b ++ z).dropWhile p = b.dropWhile p ++ z := by
  induction b with
  | nil => exact absurd rfl hb
  | cons a as ih =>
    by_cases hp : p a
    · have has : as.dropWhile p ≠ [] := by
        simpa [List.dropWhile_cons, hp] using hb
      obtain ⟨h1, h2⟩ := ih has
      simp [List.takeWhile_cons, List.dropWhile_cons, hp, h1, h2]
    · simp [List.takeWhile_cons, List.dropWhile_cons, hp]

theorem dropWhile_append_all (p : Char → Bool) (u v : Str)
    (hu : ∀ c ∈ u, p c = true) :
    (u ++ v).dropWhile p = v.dropWhile p := by
  induction u with
  | nil => rfl
  | cons a as ih =>
    have ha : p a = true := hu a (List.mem_cons_self a as)
    have has : ∀ c ∈ as, p c = true := fun c hc => hu c (List.mem_cons_of_mem a hc)
    simp [List.dropWhile_cons, ha, ih has]

theorem cutLastDot_eq (b e : Str) (he : '.' ∉ e) :
    cutLastDot (b ++ '.' :: e) = b := by
  unfold cutLastDot
  have hrev : (b ++ '.' :: e).reverse = e.reverse ++ '.' :: b.reverse := by simp
  rw [hrev, dropWhile_append_all _ e.reverse ('.' :: b.reverse) ?hall]
  · simp [List.dropWhile_cons]
  case hall =>
    intro c hc
    have : ¬ (c == '.') = true := by
      simp only [beq_iff_eq]
      exact fun hh => he (hh ▸ List.mem_reverse.mp hc)
    simp [this]

theorem extCut_ext (b e : Str) (hb : b.dropWhile (fun c => c == '.') ≠ [])
    (he : '.' ∉ e) : extCut (b ++ '.' :: e) = b := by
  unfold extCut
  dsimp only
  obtain ⟨h1, h2⟩ := takeWhile_append_of_stop (fun c => c == '.') b ('.' :: e) hb
  rw [drop_takeWhile_length, h1, h2]
  rw [if_pos (List.mem_append_right _ (List.mem_cons_self '.' e))]
  rw [cutLastDot_eq _ e he]
  exact List.takeWhile_append_dropWhile _ b

theorem splitextRoot_ext (D b e : Str) (hbS : '/' ∉ b)
    (hbd : b.dropWhile (fun c => c == '.') ≠ []) (heD : '.' ∉ e) (heS : '/' ∉ e) :
    splitextRoot (D ++ '/' :: (b ++ '.' :: e)) = D ++ '/' :: b := by
  have hmem : '/' ∉ b ++ '.' :: e := by
    intro h
    rcases List.mem_append.mp h with h | h
    · exact hbS h
    · rcases List.mem_cons.mp h with h | h
      · exact absurd h (by decide)
      · exact heS h
  have hsplit : splitAll '/' (D ++ '/' :: (b ++ '.' :: e))
      = splitAll '/' D ++ [b ++ '.' :: e] := by
    rw [splitAll_sep, splitAll_no_sep '/' _ hmem]
  unfold splitextRoot
  dsimp only
  rw [hsplit]
  simp only [List.getLast?_concat, List.dropLast_concat]
  rw [extCut_ext b e hbd heD,
    joinChar_concat '/' _ b (splitAll_ne_nil '/' D), joinChar_splitAll]

theorem ofStr_slash : ofStr "/" = ['/'] := rfl

theorem ofStr_md_eq : ofStr ".md" = ['.', 'm', 'd'] := rfl

theorem ofStr_slash_indexmd : ofStr "/index.md" = '/' :: ofStr "index.md" := rfl

theorem pages_forward (root a b : Str)
    (hbIdx : endsWith b (ofStr "index") = false) :
    path_to_url root (ofStr "/pages/" ++ a ++ ofStr "/" ++ b ++ ofStr ".md")
      = root ++ ofStr "/" ++ a ++ ofStr "/" ++ b ++ ofStr ".html" := by
  have hpn : ofStr "/pages/" ++ a ++ ofStr "/" ++ b ++ ofStr ".md"
      = ofStr "/pages/" ++ (a ++ '/' :: (b ++ ofStr ".md")) := by
    simp [List.append_assoc, ofStr_slash]
  rw [hpn]
  have hc1 : startsWith (ofStr "/pages/" ++ (a ++ '/' :: (b ++ ofStr ".md")))
      (ofStr "/posts/") = false := by
    show isPre (ofStr "/posts/") _ = false
    rw [show ofStr "/posts/" = '/' :: 'p' :: 'o' :: ofStr "sts/" from rfl,
      show ofStr "/pages/" ++ (a ++ '/' :: (b ++ ofStr ".md"))
        = '/' :: 'p' :: 'a' :: (ofStr "ges/" ++ (a ++ '/' :: (b ++ ofStr ".md")))
        from rfl,
      isPre_true_step, isPre_true_step, isPre_false_step _ _ _ _ (by decide)]
  have hc2 : startsWith (ofStr "/pages/" ++ (a ++ '/' :: (b ++ ofStr ".md")))
      (ofStr "/pages/") = true := isPre_self_append _ _
  have hdrop : (ofStr "/pages/" ++ (a ++ '/' :: (b ++ ofStr ".md"))).drop 7
      = a ++ '/' :: (b ++ ofStr ".md") := by
    rw [show (7 : Nat) = (ofStr "/pages/").length from rfl, List.drop_left]
  simp only [path_to_url, hc1, Bool.false_eq_true, if_false, hc2, if_true, hdrop]
  have hsh1 : root ++ ofStr "/" ++ (a ++ '/' :: (b ++ ofStr ".md"))
      = (root ++ ofStr "/" ++ a) ++ '/' :: (b ++ ofStr ".md") := by
    simp [List.append_assoc]
  rw [hsh1]
  have hni : endsWith ((root ++ ofStr "/" ++ a) ++ '/' :: (b ++ ofStr ".md"))
      (ofStr "index.md") = false := endsWith_index_elim hbIdx
  have hni2 : endsWith ((root ++ ofStr "/" ++ a) ++ '/' :: (b ++ ofStr ".md"))
      (ofStr "index.md" ++ ofStr "\n") = false := by
    rw [show (root ++ ofStr "/" ++ a) ++ '/' :: (b ++ ofStr ".md")
        = ((root ++ ofStr "/" ++ a) ++ '/' :: (b ++ ['.', 'm'])) ++ ['d'] from by
      simp [List.append_assoc, ofStr_md_eq],
      show ofStr "index.md" ++ ofStr "\n" = ofStr "index.md" ++ ['\n'] from rfl]
    exact endsWith_last_ne _ _ 'd' '\n' (by decide)
  have hinner : subSuffix (ofStr "index.md") []
      ((root ++ ofStr "/" ++ a) ++ '/' :: (b ++ ofStr ".md"))
      = (root ++ ofStr "/" ++ a) ++ '/' :: (b ++ ofStr ".md") := by
    unfold subSuffix
    rw [hni]
    simp only [Bool.false_eq_true, if_false]
    rw [hni2]
    simp only [Bool.false_eq_true, if_false]
  rw [hinner]
  rw [show (root ++ ofStr "/" ++ a) ++ '/' :: (b ++ ofStr ".md")
      = (root ++ ofStr "/" ++ a ++ ofStr "/" ++ b) ++ ofStr ".md" from by
    simp [List.append_assoc, ofStr_slash],
    subSuffix_append]

theorem pages_forward_index (root a : Str) :
    path_to_url root (ofStr "/pages/" ++ a ++ ofStr "/index.md")
      = root ++ ofStr "/" ++ a ++ ofStr "/" := by
  have hpn : ofStr "/pages/" ++ a ++ ofStr "/index.md"
      = ofStr "/pages/" ++ (a ++ ofStr "/index.md") := by
    simp [List.append_assoc]
  rw [hpn]
  have hc1 : startsWith (ofStr "/pages/" ++ (a ++ ofStr "/index.md"))
      (ofStr "/posts/") = false := by
    show isPre (ofStr "/posts/") _ = false
    rw [show ofStr "/posts/" = '/' :: 'p' :: 'o' :: ofStr "sts/" from rfl,
      show ofStr "/pages/" ++ (a ++ ofStr "/index.md")
        = '/' :: 'p' :: 'a' :: (ofStr "ges/" ++ (a ++ ofStr "/index.md")) from rfl,
      isPre_true_step, isPre_true_step, isPre_false_step _ _ _ _ (by decide)]
  have hc2 : startsWith (ofStr "/pages/" ++ (a ++ ofStr "/index.md"))
      (ofStr "/pages/") = true := isPre_self_append _ _
  have hdrop : (ofStr "/pages/" ++ (a ++ ofStr "/index.md")).drop 7
      = a ++ ofStr "/index.md" := by
    rw [show (7 : Nat) = (ofStr "/pages/").length from rfl, List.drop_left]
  simp only [path_to_url, hc1, Bool.false_eq_true, if_false, hc2, if_true, hdrop]
  rw [show root ++ ofStr "/" ++ (a ++ ofStr "/index.md")
      = (root ++ ofStr "/" ++ a ++ ['/']) ++ ofStr "index.md" from by
    simp [List.append_assoc, ofStr_slash_indexmd],
    subSuffix_append]
  have hn1 : endsWith ((root ++ ofStr "/" ++ a ++ ['/']) ++ ([] : Str))
      (ofStr ".md") = false := by
    rw [List.append_nil,
      show root ++ ofStr "/" ++ a ++ ['/'] = (root ++ ofStr "/" ++ a) ++ ['/'] from by
        simp [List.append_assoc],
      ofStr_md_eq,
      show (['.', 'm', 'd'] : Str) = ['.', 'm'] ++ ['d'] from rfl]
    exact endsWith_last_ne _ _ '/' 'd' (by decide)
  have hn2 : endsWith ((root ++ ofStr "/" ++ a ++ ['/']) ++ ([] : Str))
      (ofStr ".md" ++ ofStr "\n") = false := by
    rw [List.append_nil,
      show root ++ ofStr "/" ++ a ++ ['/'] = (root ++ ofStr "/" ++ a) ++ ['/'] from by
        simp [List.append_assoc],
      show ofStr ".md" ++ ofStr "\n" = ofStr ".md" ++ ['\n'] from rfl]
    exact endsWith_last_ne _ _ '/' '\n' (by decide)
  unfold subSuffix
  rw [hn1]
  simp only [Bool.false_eq_true, if_false]
  rw [hn2]
  simp only [Bool.false_eq_true, if_false]
  simp [List.append_assoc, ofStr_slash]

theorem pages_backward (pages a b : Str)
    (hpages : pages ≠ []) (hpSlash : endsWith pages (ofStr "/") = false)
    (ha : a ≠ []) (haS : '/' ∉ a) (haD : a ≠ ofStr ".") (haDD : a ≠ ofStr "..")
    (hb : b ≠ []) (hbS : '/' ∉ b)
    (hbDot : b.dropWhile (fun c => c == '.') ≠ []) :
    loadPagePath pages (a ++ ofStr "/" ++ b ++ ofStr ".html")
      = some (pages ++ ofStr "/" ++ a ++ ofStr "/" ++ b ++ ofStr ".md") := by
  have hbhS : '/' ∉ b ++ ofStr ".html" := by
    intro h
    rcases List.mem_append.mp h with h | h
    · exact hbS h
    · exact absurd h (by decide)
  have hbh_ne : b ++ ofStr ".html" ≠ [] := by
    intro h
    have h2 := congrArg List.length h
    rw [List.length_append, show (ofStr ".html").length = 5 from rfl,
      List.length_nil] at h2
    omega
  have hbh_d : b ++ ofStr ".html" ≠ ofStr "." := by
    intro h
    have h2 := congrArg List.length h
    rw [List.length_append, show (ofStr ".html").length = 5 from rfl,
      show (ofStr ".").length = 1 from rfl] at h2
    omega
  have hbh_dd : b ++ ofStr ".html" ≠ ofStr ".." := by
    intro h
    have h2 := congrArg List.length h
    rw [List.length_append, show (ofStr ".html").length = 5 from rfl,
      show (ofStr "..").length = 2 from rfl] at h2
    omega
  have hrel : a ++ ofStr "/" ++ b ++ ofStr ".html"
      = a ++ '/' :: (b ++ ofStr ".html") := by
    simp [List.append_assoc, ofStr_slash]
  have hsp : splitAll '/' (a ++ '/' :: (b ++ ofStr ".html"))
      = [a, b ++ ofStr ".html"] := by
    rw [splitAll_sep, splitAll_no_sep '/' a haS, splitAll_no_sep '/' _ hbhS]
    rfl
  have hsja : safeJoinAux [a, b ++ ofStr ".html"] = some [a, b ++ ofStr ".html"] :=
    safeJoinAux_pair _ _ _ _ (safeJoinChecks_id a haS ha haD haDD)
      (safeJoinChecks_id _ hbhS hbh_ne hbh_d hbh_dd)
  have hsj : safeJoin pages [a, b ++ ofStr ".html"]
      = some (posixJoin [pages, a, b ++ ofStr ".html"]) :=
    safeJoin_eq pages hpages _ _ hsja
  have hend1 : endsWith (pages ++ '/' :: a) (ofStr "/") = false := by
    rw [show pages ++ '/' :: a = (pages ++ ['/']) ++ a from by simp]
    exact endsWith_slash_false _ a ha haS
  have hpj : posixJoin [pages, a, b ++ ofStr ".html"]
      = (pages ++ '/' :: a) ++ '/' :: (b ++ ofStr ".html") := by
    rw [posixJoin_pair,
      posixJoin1_sep pages a hpages hpSlash (startsWith_slash_false a ha haS),
      posixJoin1_sep _ _ (by simp) hend1
        (startsWith_slash_false _ hbh_ne hbhS)]
  have hfp1 : endsWith ((pages ++ '/' :: a) ++ '/' :: (b ++ ofStr ".html"))
      (ofStr "/") = false := by
    rw [show (pages ++ '/' :: a) ++ '/' :: (b ++ ofStr ".html")
        = ((pages ++ '/' :: a) ++ ['/']) ++ (b ++ ofStr ".html") from by simp]
    exact endsWith_slash_false _ _ hbh_ne hbhS
  have hfp2 : endsWith ((pages ++ '/' :: a) ++ '/' :: (b ++ ofStr ".html"))
      (ofStr ".html") = true := by
    rw [show (pages ++ '/' :: a) ++ '/' :: (b ++ ofStr ".html")
        = ((pages ++ '/' :: a) ++ '/' :: b) ++ ofStr ".html" from by
      simp [List.append_assoc]]
    exact endsWith_append _ _
  have hsr : splitextRoot ((pages ++ '/' :: a) ++ '/' :: (b ++ ofStr ".html"))
      = (pages ++ '/' :: a) ++ '/' :: b := by
    rw [show b ++ ofStr ".html" = b ++ '.' :: ofStr "html" from rfl]
    exact splitextRoot_ext _ b _ hbS hbDot (by decide) (by decide)
  rw [hrel]
  unfold loadPagePath
  rw [hsp, hsj, hpj]
  simp only [hfp1, Bool.false_eq_true, if_false, hfp2, if_true, hsr]
  congr 1
  simp [List.append_assoc, ofStr_slash]

theorem pages_backward_index (pages a : Str)
    (hpages : pages ≠ []) (hpSlash : endsWith pages (ofStr "/") = false)
    (ha : a ≠ []) (haS : '/' ∉ a) (haD : a ≠ ofStr ".") (haDD : a ≠ ofStr "..") :
    loadPagePath pages (a ++ ofStr "/")
      = some (pages ++ ofStr "/" ++ a ++ ofStr "/index.md") := by
  have hrel : a ++ ofStr "/" = a ++ '/' :: ([] : Str) := rfl
  have hsp : splitAll '/' (a ++ '/' :: ([] : Str)) = [a, []] := by
    rw [splitAll_sep, splitAll_no_sep '/' a haS]
    rfl
  have hsja : safeJoinAux [a, ([] : Str)] = some [a, []] :=
    safeJoinAux_pair _ _ _ _ (safeJoinChecks_id a haS ha haD haDD) safeJoinChecks_nil
  have hsj : safeJoin pages [a, ([] : Str)]
      = some (posixJoin [pages, a, []]) := safeJoin_eq pages hpages _ _ hsja
  have hend1 : endsWith (pages ++ '/' :: a) (ofStr "/") = false := by
    rw [show pages ++ '/' :: a = (pages ++ ['/']) ++ a from by simp]
    exact endsWith_slash_false _ a ha haS
  have hpj : posixJoin [pages, a, ([] : Str)]
      = (pages ++ '/' :: a) ++ ['/'] := by
    rw [posixJoin_pair,
      posixJoin1_sep pages a hpages hpSlash (startsWith_slash_false a ha haS),
      posixJoin1_sep _ _ (by simp) hend1 (by decide)]
  have hfp1 : endsWith ((pages ++ '/' :: a) ++ ['/']) (ofStr "/") = true := by
    rw [show (['/'] : Str) = ofStr "/" from rfl]
    exact endsWith_append _ _
  rw [hrel]
  unfold loadPagePath
  rw [hsp, hsj, hpj]
  simp only [hfp1, if_true]
  congr 1
  simp [List.append_assoc, ofStr_slash, ofStr_slash_indexmd]

/-- C2 (corrected): the page round trip.  For `pages/a/b.md` with a basename
that does not end in `index`, forward resolution yields
`<root>/a/b.html` and backward resolution of `a/b.html` yields
`pages/a/b.md` again; for `pages/a/index.md` the forward URL is the
directory-style `<root>/a/` and backward resolution of `a/` yields the same
`pages/a/index.md`.  Basenames merely ending in `index` (e.g. `myindex.md`)
break the round trip — see the counterexample and C5. -/
theorem c2_page_roundtrip (root pages a b : Str)
    (hpages : pages ≠ []) (hpSlash : endsWith pages (ofStr "/") = false)
    (ha : a ≠ []) (haS : '/' ∉ a) (haD : a ≠ ofStr ".") (haDD : a ≠ ofStr "..")
    (hb : b ≠ []) (hbS : '/' ∉ b)
    (hbIdx : endsWith b (ofStr "index") = false)
    (hbDot : b.dropWhile (fun c => c == '.') ≠ []) :
    path_to_url root (ofStr "/pages/" ++ a ++ ofStr "/" ++ b ++ ofStr ".md")
      = root ++ ofStr "/" ++ a ++ ofStr "/" ++ b ++ ofStr ".html" ∧
    loadPagePath pages (a ++ ofStr "/" ++ b ++ ofStr ".html")
      = some (pages ++ ofStr "/" ++ a ++ ofStr "/" ++ b ++ ofStr ".md") ∧
    path_to_url root (ofStr "/pages/" ++ a ++ ofStr "/index.md")
      = root ++ ofStr "/" ++ a ++ ofStr "/" ∧
    loadPagePath pages (a ++ ofStr "/")
      = some (pages ++ ofStr "/" ++ a ++ ofStr "/index.md") :=
  ⟨pages_forward root a b hbIdx,
   pages_backward pages a b hpages hpSlash ha haS haD haDD hb hbS hbDot,
   pages_forward_index root a,
   pages_backward_index pages a hpages hpSlash ha haS haD haDD⟩

/-- Witness for the amended C2 at the concrete page path `pages/a/b.md`
(with application root `""`): forward gives `/a/b.html`, backward gives
`pages/a/b.md`; `pages/a/index.md` gives `/a/` and back. -/
theorem c2_witness :
    path_to_url [] (ofStr "/pages/a/b.md") = ofStr "/a/b.html" ∧
    loadPagePath (ofStr "pages") (ofStr "a/b.html") = some (ofStr "pages/a/b.md") ∧
    path_to_url [] (ofStr "/pages/a/index.md") = ofStr "/a/" ∧
    loadPagePath (ofStr "pages") (ofStr "a/") = some (ofStr "pages/a/index.md") := by
  obtain ⟨h1, h2, h3, h4⟩ := c2_page_roundtrip [] (ofStr "pages") (ofStr "a")
    (ofStr "b") (by decide) (by decide) (by decide) (by decide) (by decide)
    (by decide) (by decide) (by decide) (by decide) (by decide)
  refine ⟨?_, ?_, ?_, ?_⟩
  · rw [show ofStr "/pages/a/b.md"
      = ofStr "/pages/" ++ ofStr "a" ++ ofStr "/" ++ ofStr "b" ++ ofStr ".md"
      from rfl, h1]
    decide
  · rw [show ofStr "a/b.html"
      = ofStr "a" ++ ofStr "/" ++ ofStr "b" ++ ofStr ".html" from rfl, h2]
    decide
  · rw [show ofStr "/pages/a/index.md"
      = ofStr "/pages/" ++ ofStr "a" ++ ofStr "/index.md" from rfl, h3]
    decide
  · rw [show ofStr "a/" = ofStr "a" ++ ofStr "/" from rfl, h4]
    decide

/-- C2 counterexample: for `pages/a/myindex.md` the forward URL is
`<root>/a/my` (the C5 slip), and backward-resolving `a/my` yields
`pages/a/my.md`, not `pages/a/myindex.md`: the round trip fails for
basenames ending in `index`. -/
theorem c2_counterexample :
    path_to_url [] (ofStr "/pages/a/myindex.md") = ofStr "/a/my" ∧
    loadPagePath (ofStr "pages") (ofStr "a/my") = some (ofStr "pages/a/my.md") ∧
    ofStr "pages/a/my.md" ≠ ofStr "pages/a/myindex.md" := by
  decide

/-- A relative path "does not climb": none of its `/`-separated components
is `..`.  Together with not being absolute this means the joined path can
never resolve outside the directory it is appended to — the formal sense in
which a candidate "escapes the source directory" is excluded. -/
def noUp (q : Str) : Prop := ofStr ".." ∉ splitAll '/' q

theorem mem_splitAll_no_sep (c : Char) (s : Str) :
    ∀ x ∈ splitAll c s, c ∉ x := by
  induction s with
  | nil =>
    intro x hx
    simp [splitAll] at hx
    simp [hx]
  | cons a as ih =>
    intro x hx
    by_cases hac : a = c
    · subst hac
      rw [splitAll_cons_sep] at hx
      rcases List.mem_cons.mp hx with hx | hx
      · simp [hx]
      · exact ih x hx
    · obtain ⟨s0, ss, hs⟩ : ∃ s0 ss, splitAll c as = s0 :: ss := by
        cases hq : splitAll c as with
        | nil => exact absurd hq (splitAll_ne_nil c as)
        | cons q qs => exact ⟨q, qs, rfl⟩
      rw [splitAll_cons_ne c a as hac s0 ss hs] at hx
      rcases List.mem_cons.mp hx with hx | hx
      · subst hx
        intro hmem
        rcases List.mem_cons.mp hmem with hmem | hmem
        · exact hac hmem.symm
        · exact ih s0 (hs ▸ List.mem_cons_self s0 ss) hmem
      · exact ih x (hs ▸ List.mem_cons_of_mem s0 hx)

theorem mem_of_getLastQ {α : Type} {l : List α} {a : α} (h : l.getLast? = some a) :
    a ∈ l := by
  induction l with
  | nil => cases h
  | cons x xs ih =>
    cases xs with
    | nil =>
      simp [List.getLast?] at h
      simp [h]
    | cons y ys =>
      rw [List.getLast?_cons_cons] at h
      exact List.mem_cons_of_mem x (ih h)

theorem splitAll_last_decomp (x q : Str) (hx : '/' ∉ x) :
    ∃ init last, splitAll '/' q = init ++ [last] ∧
      splitAll '/' (q ++ x) = init ++ [last ++ x] := by
  induction q with
  | nil =>
    exact ⟨[], [], rfl, by rw [List.nil_append, splitAll_no_sep '/' x hx]; rfl⟩
  | cons c q' ih =>
    obtain ⟨init, last, h1, h2⟩ := ih
    by_cases hc : c = '/'
    · subst hc
      refine ⟨[] :: init, last, ?_, ?_⟩
      · rw [splitAll_cons_sep, h1]
        rfl
      · rw [List.cons_append, splitAll_cons_sep, h2]
        rfl
    · cases init with
      | nil =>
        simp only [List.nil_append] at h1 h2
        refine ⟨[], c :: last, ?_, ?_⟩
        · rw [splitAll_cons_ne '/' c q' hc last [] h1]
          rfl
        · rw [List.cons_append, splitAll_cons_ne '/' c (q' ++ x) hc (last ++ x) [] h2]
          simp
      | cons i0 irest =>
        refine ⟨(c :: i0) :: irest, last, ?_, ?_⟩
        · rw [splitAll_cons_ne '/' c q' hc i0 (irest ++ [last]) (by simpa using h1)]
          rfl
        · rw [List.cons_append,
            splitAll_cons_ne '/' c (q' ++ x) hc i0 (irest ++ [last ++ x])
              (by simpa using h2)]
          rfl

theorem noUp_nil : noUp [] := by
  unfold noUp
  decide

theorem noUp_append_no_sep (q x : Str) (hx : '/' ∉ x) (hq : noUp q)
    (hlen : 3 ≤ x.length) : noUp (q ++ x) := by
  obtain ⟨init, last, h1, h2⟩ := splitAll_last_decomp x q hx
  unfold noUp at hq ⊢
  rw [h2]
  intro hmem
  rcases List.mem_append.mp hmem with hmem | hmem
  · exact hq (h1 ▸ List.mem_append_left _ hmem)
  · rcases List.mem_cons.mp hmem with hmem | hmem
    · have := congrArg List.length hmem
      rw [List.length_append, show (ofStr "..").length = 2 from rfl] at this
      omega
    · cases hmem

theorem noUp_sep_append (q x : Str) (hq : noUp q) (hx : noUp x) :
    noUp (q ++ '/' :: x) := by
  unfold noUp at hq hx ⊢
  rw [splitAll_sep]
  intro hmem
  rcases List.mem_append.mp hmem with hmem | hmem
  · exact hq hmem
  · exact hx hmem

theorem noUp_of_trailing_slash (q0 : Str) (hq : noUp (q0 ++ ['/'])) : noUp q0 := by
  unfold noUp at hq ⊢
  intro hmem
  apply hq
  rw [show q0 ++ ['/'] = q0 ++ '/' :: ([] : Str) from rfl, splitAll_sep]
  exact List.mem_append_left _ hmem

theorem within_ends_slash (d q : Str)
    (h : endsWith (d ++ '/' :: q) (ofStr "/") = true) :
    q = [] ∨ ∃ q0, q = q0 ++ ['/'] := by
  cases hq : q with
  | nil => exact Or.inl rfl
  | cons c q' =>
    right
    subst hq
    obtain ⟨e, t, hrev⟩ : ∃ e t, (c :: q').reverse = e :: t := by
      cases hr : (c :: q').reverse with
      | nil => exact absurd (List.reverse_eq_nil_iff.mp hr) (by simp)
      | cons e t => exact ⟨e, t, rfl⟩
    unfold endsWith at h
    rw [rev_slash] at h
    have hshape : (d ++ '/' :: (c :: q')).reverse
        = e :: (t ++ '/' :: d.reverse) := by
      rw [show d ++ '/' :: (c :: q') = (d ++ ['/']) ++ (c :: q') from by simp,
        List.reverse_append, hrev]
      simp
    rw [hshape] at h
    simp only [isPre, Bool.and_eq_true, decide_eq_true_eq] at h
    obtain ⟨he, _⟩ := h
    refine ⟨t.reverse, ?_⟩
    have : (c :: q') = (e :: t).reverse := by
      rw [← hrev, List.reverse_reverse]
    rw [this, ← he]
    simp

/-- Invariant on `normpath`'s accumulated component list: components are
non-empty, not `.`, and slash-free. -/
def goodComps (l : List Str) : Prop :=
  ∀ c ∈ l, c ≠ [] ∧ c ≠ ofStr "." ∧ '/' ∉ c

/-- Invariant on `normpath`'s accumulated component list: every `..`
component sits in a leading run. -/
def ddShape (l : List Str) : Prop :=
  ∃ k rest, l = List.replicate k (ofStr "..") ++ rest ∧ ofStr ".." ∉ rest

theorem dropLast_replicate_dd (k : Nat) :
    (List.replicate k (ofStr "..")).dropLast = List.replicate (k - 1) (ofStr "..") := by
  cases k with
  | zero => rfl
  | succ n =>
    rw [List.replicate_succ', List.dropLast_concat]
    rfl

theorem normStep_preserves (iS : Nat) (acc : List Str) (comp : Str)
    (hG : goodComps acc) (hS : ddShape acc) (hcomp : '/' ∉ comp) :
    goodComps (normStep iS acc comp) ∧ ddShape (normStep iS acc comp) := by
  unfold normStep
  by_cases h0 : comp = [] ∨ comp = ofStr "."
  · rw [if_pos h0]
    exact ⟨hG, hS⟩
  · rw [if_neg h0]
    push_neg at h0
    by_cases h1 : comp ≠ ofStr ".." ∨ (iS = 0 ∧ acc = [])
        ∨ (acc ≠ [] ∧ acc.getLast? = some (ofStr ".."))
    · rw [if_pos h1]
      constructor
      · intro c hc
        rcases List.mem_append.mp hc with hc | hc
        · exact hG c hc
        · rcases List.mem_cons.mp hc with hc | hc
          · exact hc ▸ ⟨h0.1, h0.2, hcomp⟩
          · cases hc
      · by_cases hdd : comp = ofStr ".."
        · rcases h1 with h | h | h
          · exact absurd hdd h
          · obtain ⟨_, hacc⟩ := h
            subst hacc
            exact ⟨1, [], by simp [List.replicate, hdd], by simp⟩
          · obtain ⟨hne, hlast⟩ := h
            obtain ⟨k, rest, hkr, hnr⟩ := hS
            have hrest : rest = [] := by
              by_contra hrne
              have hgl : acc.getLast? = rest.getLast? := by
                rw [hkr]
                exact List.getLast?_append_of_ne_nil _ hrne
              rw [hlast] at hgl
              exact hnr (mem_of_getLastQ hgl.symm)
            subst hrest
            refine ⟨k + 1, [], ?_, by simp⟩
            rw [hkr, hdd, List.append_nil, List.append_nil, List.replicate_succ']
        · obtain ⟨k, rest, hkr, hnr⟩ := hS
          refine ⟨k, rest ++ [comp], by rw [hkr, List.append_assoc], ?_⟩
          intro hmem
          rcases List.mem_append.mp hmem with hmem | hmem
          · exact hnr hmem
          · rcases List.mem_cons.mp hmem with hmem | hmem
            · exact hdd hmem.symm
            · cases hmem
    · rw [if_neg h1]
      by_cases hacc : acc ≠ []
      · rw [if_pos hacc]
        constructor
        · intro c hc
          exact hG c ((List.dropLast_sublist acc).subset hc)
        · obtain ⟨k, rest, hkr, hnr⟩ := hS
          by_cases hrest : rest = []
          · subst hrest
            rw [List.append_nil] at hkr
            subst hkr
            rw [dropLast_replicate_dd]
            exact ⟨k - 1, [], by simp, by simp⟩
          · refine ⟨k, rest.dropLast, ?_, ?_⟩
            · rw [hkr, List.dropLast_append_of_ne_nil _ hrest]
            · intro hmem
              exact hnr ((List.dropLast_sublist rest).subset hmem)
      · rw [if_neg hacc]
        exact ⟨hG, hS⟩

theorem foldl_normStep_inv (iS : Nat) (comps : List Str)
    (hcomps : ∀ c ∈ comps, '/' ∉ c) :
    ∀ acc, goodComps acc → ddShape acc →
      goodComps (comps.foldl (normStep iS) acc) ∧
      ddShape (comps.foldl (normStep iS) acc) := by
  induction comps with
  | nil => intro acc hG hS; exact ⟨hG, hS⟩
  | cons c cs ih =>
    intro acc hG hS
    rw [List.foldl_cons]
    have hc : '/' ∉ c := hcomps c (List.mem_cons_self c cs)
    have hcs : ∀ x ∈ cs, '/' ∉ x := fun x hx => hcomps x (List.mem_cons_of_mem c hx)
    obtain ⟨hG2, hS2⟩ := normStep_preserves iS acc c hG hS hc
    exact ih hcs _ hG2 hS2

theorem splitAll_joinChar (l : List Str) (hl : l ≠ [])
    (hc : ∀ c ∈ l, '/' ∉ c) : splitAll '/' (joinChar '/' l) = l := by
  induction l with
  | nil => exact absurd rfl hl
  | cons x xs ih =>
    cases xs with
    | nil =>
      show splitAll '/' x = [x]
      exact splitAll_no_sep '/' x (hc x (List.mem_cons_self x []))
    | cons y ys =>
      rw [joinChar_cons2, splitAll_sep,
        splitAll_no_sep '/' x (hc x (List.mem_cons_self x _)),
        ih (by simp) (fun c hcc => hc c (List.mem_cons_of_mem x hcc))]
      rfl

theorem normpath_noUp (f : Str) (hf : f ≠ [])
    (h1 : startsWith (normpath f) (ofStr "/") = false)
    (h2 : normpath f ≠ ofStr "..")
    (h3 : startsWith (normpath f) (ofStr "../") = false) :
    noUp (normpath f) ∧ normpath f ≠ [] := by
  have hcomps : ∀ c ∈ splitAll '/' f, '/' ∉ c := mem_splitAll_no_sep '/' f
  obtain ⟨hG, hS⟩ := foldl_normStep_inv (normpathInitSlashes f) (splitAll '/' f)
    hcomps [] (fun c hc => absurd hc (List.not_mem_nil c)) ⟨0, [], rfl, by simp⟩
  unfold normpath at h1 h2 h3 ⊢
  rw [if_neg hf] at h1 h2 h3 ⊢
  dsimp only at h1 h2 h3 ⊢
  generalize hiSe : normpathInitSlashes f = iS at h1 h2 h3 hG hS ⊢
  generalize hnce : (splitAll '/' f).foldl (normStep iS) [] = nc at h1 h2 h3 hG hS ⊢
  by_cases hout : List.replicate iS '/' ++ joinChar '/' nc = []
  · rw [if_pos hout] at h1 h2 h3 ⊢
    exact ⟨by unfold noUp; decide, by decide⟩
  · rw [if_neg hout] at h1 h2 h3 ⊢
    rcases Nat.eq_zero_or_pos iS with hz | hpos
    · subst hz
      simp only [List.replicate, List.nil_append] at h1 h2 h3 hout ⊢
      obtain ⟨k, rest, hkr, hnr⟩ := hS
      cases k with
      | zero =>
        rw [List.replicate, List.nil_append] at hkr
        subst hkr
        have hne : nc ≠ [] := by
          intro hh
          rw [hh] at hout
          exact hout rfl
        constructor
        · unfold noUp
          rw [splitAll_joinChar nc hne (fun c hc => (hG c hc).2.2)]
          exact hnr
        · exact hout
      | succ n =>
        exfalso
        rw [List.replicate_succ, List.cons_append] at hkr
        subst hkr
        cases hren : List.replicate n (ofStr "..") ++ rest with
        | nil =>
          rw [hren] at h2
          exact h2 rfl
        | cons z zs =>
          rw [hren, joinChar_cons2] at h3
          have htr : startsWith (ofStr ".." ++ '/' :: joinChar '/' (z :: zs))
              (ofStr "../") = true := by
            show isPre (ofStr "../") _ = true
            rw [show ofStr "../" = '.' :: '.' :: '/' :: ([] : Str) from rfl,
              show ofStr ".." ++ '/' :: joinChar '/' (z :: zs)
                = '.' :: '.' :: '/' :: joinChar '/' (z :: zs) from rfl,
              isPre_true_step, isPre_true_step, isPre_true_step]
            rfl
          rw [htr] at h3
          cases h3
    · exfalso
      obtain ⟨m, hm⟩ : ∃ m, iS = m + 1 := ⟨iS - 1, by omega⟩
      subst hm
      rw [List.replicate_succ, List.cons_append] at h1
      have htr : startsWith ('/' :: (List.replicate m '/' ++ joinChar '/' nc))
          (ofStr "/") = true := by
        show isPre (ofStr "/") _ = true
        rw [ofStr_slash, isPre_true_step]
        rfl
      rw [htr] at h1
      cases h1

theorem safeJoinChecks_no_dotdot (f fn : Str) (h : safeJoinChecks f = some fn) :
    noUp fn ∧ startsWith fn (ofStr "/") = false := by
  unfold safeJoinChecks at h
  dsimp only at h
  by_cases hf : f = []
  · subst hf
    have hinner : (if ([] : Str) ≠ [] then normpath [] else []) = [] := by simp
    rw [hinner] at h
    rw [if_neg (show ¬(startsWith ([] : Str) (ofStr "/") = true ∨
        ([] : Str) = ofStr ".." ∨ startsWith ([] : Str) (ofStr "../") = true)
      from by decide)] at h
    cases h
    exact ⟨noUp_nil, by decide⟩
  · rw [if_pos hf] at h
    by_cases hcond : startsWith (normpath f) (ofStr "/") = true ∨
        normpath f = ofStr ".." ∨ startsWith (normpath f) (ofStr "../") = true
    · rw [if_pos hcond] at h
      cases h
    · rw [if_neg hcond] at h
      cases h
      push_neg at hcond
      obtain ⟨hA, hB, hC⟩ := hcond
      have hA2 : startsWith (normpath f) (ofStr "/") = false := by
        cases hE : startsWith (normpath f) (ofStr "/") with
        | false => rfl
        | true => exact absurd hE hA
      have hC2 : startsWith (normpath f) (ofStr "../") = false := by
        cases hE : startsWith (normpath f) (ofStr "../") with
        | false => rfl
        | true => exact absurd hE hC
      exact ⟨(normpath_noUp f hf hA2 hB hC2).1, hA2⟩

theorem safeJoinAux_sound (ps fs : List Str) (h : safeJoinAux ps = some fs) :
    ∀ fn ∈ fs, noUp fn ∧ startsWith fn (ofStr "/") = false := by
  induction ps generalizing fs with
  | nil =>
    cases h
    intro fn hfn
    cases hfn
  | cons p ps ih =>
    unfold safeJoinAux at h
    cases hch : safeJoinChecks p with
    | none => rw [hch] at h; cases h
    | some fn0 =>
      rw [hch] at h
      cases hrest : safeJoinAux ps with
      | none => rw [hrest] at h; cases h
      | some fs0 =>
        rw [hrest] at h
        simp only [Option.map, Option.some.injEq] at h
        subst h
        intro fn hfn
        rcases List.mem_cons.mp hfn with hfn | hfn
        · exact hfn ▸ safeJoinChecks_no_dotdot p fn0 hch
        · exact ih fs0 hrest fn hfn

theorem posixJoin_fold_within (d : Str) (q : Str) (hq : noUp q)
    (fs : List Str) (hfs : ∀ fn ∈ fs, noUp fn ∧ startsWith fn (ofStr "/") = false) :
    ∃ r, List.foldl posixJoin1 (d ++ '/' :: q) fs = d ++ '/' :: r ∧ noUp r := by
  induction fs generalizing q with
  | nil => exact ⟨q, rfl, hq⟩
  | cons fn rest ih =>
    obtain ⟨hfn, hfnS⟩ := hfs fn (List.mem_cons_self fn rest)
    have hrest : ∀ x ∈ rest, noUp x ∧ startsWith x (ofStr "/") = false :=
      fun x hx => hfs x (List.mem_cons_of_mem fn hx)
    rw [List.foldl_cons]
    cases hE : endsWith (d ++ '/' :: q) (ofStr "/") with
    | true =>
      rw [posixJoin1_after_sep _ _ hE hfnS]
      rcases within_ends_slash d q hE with hq0 | ⟨q0, hq0⟩
      · subst hq0
        have : d ++ '/' :: ([] : Str) ++ fn = d ++ '/' :: fn := by simp
        rw [this]
        exact ih fn hfn hrest
      · subst hq0
        have : d ++ '/' :: (q0 ++ ['/']) ++ fn = d ++ '/' :: (q0 ++ '/' :: fn) := by
          simp
        rw [this]
        exact ih _ (noUp_sep_append q0 fn (noUp_of_trailing_slash q0 hq) hfn) hrest
    | false =>
      rw [posixJoin1_sep _ _ (by simp) hE hfnS]
      have : d ++ '/' :: q ++ '/' :: fn = d ++ '/' :: (q ++ '/' :: fn) := by simp
      rw [this]
      exact ih _ (noUp_sep_append q fn hq hfn) hrest

theorem safeJoin_within (d : Str) (hd : d ≠ [])
    (hdS : endsWith d (ofStr "/") = false) (ps : List Str) (hps : ps ≠ [])
    (p : Str) (h : safeJoin d ps = some p) :
    ∃ q, p = d ++ '/' :: q ∧ noUp q := by
  unfold safeJoin at h
  rw [if_neg hd] at h
  cases haux : safeJoinAux ps with
  | none => rw [haux] at h; cases h
  | some fs =>
    rw [haux] at h
    simp only [Option.map, Option.some.injEq] at h
    have hsound := safeJoinAux_sound ps fs haux
    cases fs with
    | nil =>
      exfalso
      cases ps with
      | nil => exact hps rfl
      | cons p0 ps0 =>
        unfold safeJoinAux at haux
        cases hch : safeJoinChecks p0 with
        | none => rw [hch] at haux; cases haux
        | some fn0 =>
          rw [hch] at haux
          cases hrest : safeJoinAux ps0 with
          | none => rw [hrest] at haux; cases haux
          | some fs0 => rw [hrest] at haux; cases haux
    | cons f0 frest =>
      obtain ⟨hf0, hf0S⟩ := hsound f0 (List.mem_cons_self f0 frest)
      have hfirst : posixJoin1 d f0 = d ++ '/' :: f0 :=
        posixJoin1_sep d f0 hd hdS hf0S
      have hfold : posixJoin (d :: f0 :: frest)
          = List.foldl posixJoin1 (d ++ '/' :: f0) frest := by
        show List.foldl posixJoin1 d (f0 :: frest) = _
        rw [List.foldl_cons, hfirst]
      obtain ⟨r, hr, hrU⟩ := posixJoin_fold_within d f0 hf0 frest
        (fun x hx => hsound x (List.mem_cons_of_mem f0 hx))
      subst h
      rw [hfold, hr]
      exact ⟨r, rfl, hrU⟩

theorem titleStep_file (fp : Str) (e1 : Dict) (c : Str) (ec : Dict × Str)
    (h : titleStep fp e1 c = some ec) :
    dictGet ec.1 "file" = dictGet e1 "file" := by
  unfold titleStep at h
  by_cases hc : dictContains e1 "title"
  · rw [if_pos hc] at h
    cases h
    rfl
  · rw [if_neg hc] at h
    by_cases hh : startsWith c (ofStr "# ")
    · rw [if_pos hh] at h
      cases hsp : splitOnce (ofStr "\n") c with
      | none => rw [hsp] at h; cases h
      | some tc =>
        rw [hsp] at h
        cases h
        exact dictGet_insert_ne _ _ _ _ (by decide)
    · rw [if_neg hh] at h
      cases h
      exact dictGet_insert_ne _ _ _ _ (by decide)

theorem loadEntry_file (yaml : Str → Option Dict) (render : Str → Str)
    (fullpath : Str) (doc : Option Str) (metaOnly : Bool) (e : Dict)
    (h : loadEntry yaml render fullpath doc metaOnly = .ok (some e)) :
    dictGet e "file" = some (.str fullpath) := by
  match doc with
  | Option.none => simp [loadEntry] at h
  | some d =>
    simp only [loadEntry] at h
    split at h
    · simp at h
    · split at h
      · simp at h
      · rename_i ec heq2
        simp only [Except.ok.injEq, Option.some.injEq] at h
        subst h
        have hfile : dictGet ec.1 "file" = some (.str fullpath) := by
          rw [titleStep_file _ _ _ _ heq2]
          exact dictGet_insert_self _ _ _
        have hnd : dictGet (normDates ec.1) "file" = some (.str fullpath) := by
          rw [dictGet_normDates_ne _ _ (by decide) (by decide)]
          exact hfile
        by_cases hm : metaOnly
        · simpa [hm] using hnd
        · simp only [hm, Bool.false_eq_true, if_false]
          rw [dictGet_insert_ne _ _ _ _ (by decide)]
          exact hnd

theorem loadEntriesCore_within (yaml : Str → Option Dict) (render : Str → Str)
    (metaOnly : Bool) (d : Str) (fs : Str → Option Str)
    (hd : d ≠ []) (hdS : endsWith d (ofStr "/") = false) :
    ∀ files base, loadEntriesCore yaml render metaOnly d fs files = .ok base →
      ∀ e ∈ base, ∃ q, dictGet e "file" = some (.str (d ++ '/' :: q)) ∧ noUp q := by
  intro files
  induction files with
  | nil =>
    intro base h e he
    cases h
    cases he
  | cons f rest ih =>
    intro base h e he
    unfold loadEntriesCore at h
    by_cases hmd : endsWith f (ofStr ".md") = true
    · rw [if_pos hmd] at h
      cases hsj : safeJoin d [f] with
      | none =>
        rw [hsj] at h
        exact ih base h e he
      | some fp =>
        simp only [hsj] at h
        cases hle : loadEntry yaml render fp (fs fp) metaOnly with
        | error er =>
          simp only [hle] at h
          cases h
        | ok oe =>
          simp only [hle] at h
          cases oe with
          | none => exact ih base h e he
          | some entry =>
            cases hrest : loadEntriesCore yaml render metaOnly d fs rest with
            | error er => rw [hrest] at h; cases h
            | ok base0 =>
              rw [hrest] at h
              simp only [Except.map, Except.ok.injEq] at h
              subst h
              rcases List.mem_cons.mp he with he | he
              · obtain ⟨q, hq, hqU⟩ :=
                  safeJoin_within d hd hdS [f] (by simp) fp hsj
                subst hq
                exact ⟨q, he ▸ loadEntry_file yaml render _ (fs _) metaOnly entry hle,
                  hqU⟩
              · exact ih base0 hrest e he
    · rw [if_neg hmd] at h
      exact ih base h e he

theorem extCut_subset (base : Str) : ∀ c ∈ extCut base, c ∈ base := by
  unfold extCut
  dsimp only
  by_cases hdot : '.' ∈ base.drop (base.takeWhile (fun c => c == '.')).length
  · rw [if_pos hdot]
    intro c hc
    rcases List.mem_append.mp hc with hc | hc
    · exact (List.takeWhile_sublist _).subset hc
    · have h1 : c ∈ base.drop (base.takeWhile (fun c => c == '.')).length := by
        unfold cutLastDot at hc
        have h2 := List.mem_reverse.mpr hc
        rw [List.reverse_reverse] at h2
        have h3 := (List.drop_sublist 1 _).subset h2
        have h4 := (List.dropWhile_sublist _).subset h3
        exact List.mem_reverse.mp h4
      exact (List.drop_sublist _ _).subset h1
  · rw [if_neg hdot]
    intro c hc
    exact hc

theorem concat_inj {l₁ l₂ : List Str} {a b : Str}
    (h : l₁ ++ [a] = l₂ ++ [b]) : l₁ = l₂ ∧ a = b := by
  have h2 := congrArg List.reverse h
  rw [List.reverse_append, List.reverse_append] at h2
  simp only [List.reverse_cons, List.reverse_nil, List.nil_append,
    List.cons_append, List.cons.injEq] at h2
  obtain ⟨hab, hl⟩ := h2
  exact ⟨List.reverse_injective hl, hab⟩

theorem joinChar_append (c : Char) (xs ys : List Str) (hxs : xs ≠ [])
    (hys : ys ≠ []) :
    joinChar c (xs ++ ys) = joinChar c xs ++ c :: joinChar c ys := by
  induction xs with
  | nil => exact absurd rfl hxs
  | cons x xs' ih =>
    cases xs' with
    | nil =>
      cases ys with
      | nil => exact absurd rfl hys
      | cons y ys' =>
        rw [List.singleton_append, joinChar_cons2]
        rfl
    | cons x2 xs2 =>
      have h2 := ih (by simp)
      rw [show (x :: x2 :: xs2) ++ ys = x :: x2 :: (xs2 ++ ys) from by simp,
        joinChar_cons2]
      rw [List.cons_append] at h2
      rw [h2, joinChar_cons2]
      simp [List.append_assoc]

theorem splitextRoot_within (d q : Str) (hq : noUp q) :
    ∃ r, splitextRoot (d ++ '/' :: q) ++ ofStr ".md" = d ++ '/' :: r ∧ noUp r := by
  have hqs : splitAll '/' q ≠ [] := splitAll_ne_nil '/' q
  obtain ⟨init, base, hinit⟩ : ∃ init base, splitAll '/' q = init ++ [base] := by
    refine ⟨(splitAll '/' q).dropLast, (splitAll '/' q).getLast hqs, ?_⟩
    exact (List.dropLast_append_getLast hqs).symm
  have hcs : splitAll '/' (d ++ '/' :: q)
      = (splitAll '/' d ++ init) ++ [base] := by
    rw [splitAll_sep, hinit, List.append_assoc]
  have hbase_mem : ∀ x ∈ init ++ [base], x ∈ splitAll '/' q := fun x hx =>
    hinit ▸ hx
  have hSfree : ∀ x ∈ init ++ [extCut base], '/' ∉ x := by
    intro x hx
    rcases List.mem_append.mp hx with hx | hx
    · exact mem_splitAll_no_sep '/' q x (hbase_mem x (List.mem_append_left _ hx))
    · rcases List.mem_cons.mp hx with hx | hx
      · subst hx
        intro hmem
        exact mem_splitAll_no_sep '/' q base
          (hbase_mem base (List.mem_append_right _ (List.mem_cons_self _ _)))
          (extCut_subset base _ hmem)
      · cases hx
  have hsr : splitextRoot (d ++ '/' :: q)
      = d ++ '/' :: joinChar '/' (init ++ [extCut base]) := by
    unfold splitextRoot
    dsimp only
    rw [hcs]
    simp only [List.getLast?_concat, List.dropLast_concat]
    rw [List.append_assoc, joinChar_append '/' _ _ (splitAll_ne_nil '/' d)
      (by simp), joinChar_splitAll]
  refine ⟨joinChar '/' (init ++ [extCut base]) ++ ofStr ".md", ?_, ?_⟩
  · rw [hsr]
    simp [List.append_assoc]
  · obtain ⟨init2, last2, hJ, hJmd⟩ :=
      splitAll_last_decomp (ofStr ".md") (joinChar '/' (init ++ [extCut base]))
        (by decide)
    have hJsplit : splitAll '/' (joinChar '/' (init ++ [extCut base]))
        = init ++ [extCut base] := splitAll_joinChar _ (by simp) hSfree
    rw [hJsplit] at hJ
    obtain ⟨hi2, hl2⟩ := concat_inj hJ.symm
    unfold noUp
    rw [hJmd, hi2, hl2]
    intro hmem
    rcases List.mem_append.mp hmem with hmem | hmem
    · exact hq (hinit ▸ List.mem_append_left _ hmem)
    · rcases List.mem_cons.mp hmem with hmem | hmem
      · have := congrArg List.length hmem
        rw [List.length_append, show (ofStr ".md").length = 3 from rfl,
          show (ofStr "..").length = 2 from rfl] at this
        omega
      · cases hmem

theorem loadPagePath_within (pages rel p : Str) (hp : pages ≠ [])
    (hpS : endsWith pages (ofStr "/") = false)
    (h : loadPagePath pages rel = some p) :
    ∃ q, p = pages ++ '/' :: q ∧ noUp q := by
  unfold loadPagePath at h
  cases hsj : safeJoin pages (splitAll '/' rel) with
  | none => rw [hsj] at h; cases h
  | some fp =>
    simp only [hsj] at h
    obtain ⟨q, hq, hqU⟩ :=
      safeJoin_within pages hp hpS _ (splitAll_ne_nil '/' rel) fp hsj
    subst hq
    cases hE : endsWith (pages ++ '/' :: q) (ofStr "/") with
    | true =>
      rw [if_pos hE] at h
      cases h
      rcases within_ends_slash pages q hE with h0 | ⟨q0, h0⟩
      · subst h0
        refine ⟨ofStr "index.md", ?_, by unfold noUp; decide⟩
        simp
      · subst h0
        refine ⟨q0 ++ '/' :: ofStr "index.md", ?_,
          noUp_sep_append q0 _ (noUp_of_trailing_slash q0 hqU)
            (by unfold noUp; decide)⟩
        simp
    | false =>
      rw [if_neg (by simp [hE])] at h
      cases hH : endsWith (pages ++ '/' :: q) (ofStr ".html") with
      | true =>
        rw [if_pos hH] at h
        cases h
        obtain ⟨r, hr, hrU⟩ := splitextRoot_within pages q hqU
        exact ⟨r, hr, hrU⟩
      | false =>
        rw [if_neg (by simp [hH])] at h
        cases h
        refine ⟨q ++ ofStr ".md", ?_,
          noUp_append_no_sep q (ofStr ".md") (by decide) hqU (by decide)⟩
        simp [List.append_assoc]

/-- C9 (confirmed): no operation loads content from outside its configured
root.  A listing file whose `safe_join` is rejected is skipped without
aborting the listing; every entry yielded by `load_entries` has its `file`
path strictly inside the collection directory (the relative remainder has
no `..` component); a request URL whose `safe_join` is rejected is treated
as not-found by `load_page`; and every path `load_page` does resolve lies
strictly inside the pages root. -/
theorem c9_no_path_escape (yaml : Str → Option Dict) (render : Str → Str)
    (metaOnly : Bool) (d : Str) (fs : Str → Option Str) (pages : Str)
    (hd : d ≠ []) (hdS : endsWith d (ofStr "/") = false)
    (hp : pages ≠ []) (hpS : endsWith pages (ofStr "/") = false) :
    (∀ f files, safeJoin d [f] = Option.none →
      loadEntriesCore yaml render metaOnly d fs (f :: files)
        = loadEntriesCore yaml render metaOnly d fs files) ∧
    (∀ files l, loadEntries yaml render metaOnly d fs files = .ok l →
      ∀ e ∈ l, ∃ q, dictGet e "file" = some (.str (d ++ '/' :: q)) ∧ noUp q) ∧
    (∀ rel, safeJoin pages (splitAll '/' rel) = Option.none →
      loadPagePath pages rel = Option.none) ∧
    (∀ rel p, loadPagePath pages rel = some p →
      ∃ q, p = pages ++ '/' :: q ∧ noUp q) := by
  refine ⟨?_, ?_, ?_, ?_⟩
  · intro f files hsj
    conv_lhs => simp only [loadEntriesCore]
    by_cases hmd : endsWith f (ofStr ".md") = true
    · rw [if_pos hmd, hsj]
    · rw [if_neg hmd]
  · intro files l hl e he
    unfold loadEntries at hl
    cases hf : loadEntriesFiltered yaml render metaOnly d fs files with
    | error er => rw [hf] at hl; cases hl
    | ok pre =>
      rw [hf] at hl
      simp only [Except.map, Except.ok.injEq] at hl
      subst hl
      have hpre : e ∈ pre := (sortByKey_mem orderKey pre e).mp he
      unfold loadEntriesFiltered at hf
      cases hc : loadEntriesCore yaml render metaOnly d fs files with
      | error er => rw [hc] at hf; cases hf
      | ok base =>
        rw [hc] at hf
        simp only [Except.map, Except.ok.injEq] at hf
        subst hf
        exact loadEntriesCore_within yaml render metaOnly d fs hd hdS files base hc
          e (List.mem_of_mem_filter hpre)
  · intro rel hsj
    unfold loadPagePath
    rw [hsj]
  · intro rel p h
    exact loadPagePath_within pages rel p hp hpS h

/-- Witness for C9: a traversal file name in a listing is skipped without
aborting, a traversal URL is not-found, and a resolved page path sits
inside the pages root. -/
theorem c9_witness :
    loadEntriesCore yamlMini id true (ofStr "d") (fun _ => Option.none)
      [ofStr "../evil.md", ofStr "ok.md"]
      = loadEntriesCore yamlMini id true (ofStr "d") (fun _ => Option.none)
          [ofStr "ok.md"] ∧
    loadPagePath (ofStr "pages") (ofStr "../secret") = Option.none ∧
    (∃ q, ofStr "pages/a.md" = ofStr "pages" ++ '/' :: q ∧ noUp q) := by
  have h := c9_no_path_escape yamlMini id true (ofStr "d") (fun _ => Option.none)
    (ofStr "pages") (by decide) (by decide) (by decide) (by decide)
  refine ⟨h.1 (ofStr "../evil.md") [ofStr "ok.md"] (by decide),
    h.2.2.1 (ofStr "../secret") (by decide), ?_⟩
  exact h.2.2.2 (ofStr "a.html") (ofStr "pages/a.md") (by decide)

end PurePress
